import Mathlib

/-!
Verification development for the OperandConfig structural-merge engine
(`internal/controller/operandconfig.go`).

The Go code operates on untyped JSON-like trees (`map[string]interface{}`,
`[]interface{}`, scalars, `nil`) and mutates the trees in place.  The shallow
embedding below represents such trees as a tagged variant `Value`, with maps
as ordered association lists (Go map iteration touches each key exactly once
and every loop in the source reads and writes disjoint keys, so a
deterministic traversal order is a faithful functional rendering).  Go's
`nil` interface is represented by `Value.null`; reading an absent key of a
map yields `Value.null`, exactly as a Go map read does.  `struct{}{}` (the
placeholder the controller writes into autoscaler-owned cpu limits) is
represented by `Value.empty`.  `reflect.DeepEqual` is modelled by `vbeq`,
which compares maps key-set-wise (unordered), lists positionally and scalars
exactly, as `reflect.DeepEqual` does for these dynamic types.

Where the Go code performs an unchecked type assertion that would panic
(e.g. casting a list element to `map[string]interface{}`), the embedding
takes the corresponding branch as a no-op; every theorem below that decides
a claim stays on panic-free inputs, and each such spot is marked with a
comment.
-/

namespace OperandConfig

/-- A dynamically-typed configuration tree: the embedding of Go's
`interface{}` values built from `map[string]interface{}`, `[]interface{}`,
strings, numbers, booleans, `nil` and the placeholder `struct{}{}`. -/
inductive Value where
  | null
  | boolean (x : Bool)
  | str (x : String)
  | num (x : Int)
  | empty
  | obj (fields : List (String × Value))
  | arr (elems : List Value)

/-- Look up a key in an association list of fields, returning `Value.null`
when the key is absent — the behaviour of a Go `map[string]interface{}`
read. -/
def alookup : List (String × Value) → String → Value
  | [], _ => .null
  | (k, v) :: rest, key => if k = key then v else alookup rest key

/-- Whether a key is present in an association list (a Go
`_, ok := m[k]` check distinguishes this from a stored `nil`). -/
def containsKey : List (String × Value) → String → Bool
  | [], _ => false
  | (k, _) :: rest, key => k = key || containsKey rest key

/-- `finalMap[key] = v` on a Go map: replace the binding in place if the key
is present, otherwise add it. -/
def slotUpdate : List (String × Value) → String → Value → List (String × Value)
  | [], key, v => [(key, v)]
  | (k, w) :: rest, key, v =>
      if k = key then (k, v) :: rest else (k, w) :: slotUpdate rest key v

/-- Presence-aware lookup: `some v` when the key is bound (possibly to
`Value.null`), `none` when it is absent — the `v, ok := m[k]` form. -/
def fget : List (String × Value) → String → Option Value
  | [], _ => none
  | (k, v) :: rest, key => if k = key then some v else fget rest key

/-- Duplicate-free keys of a single association list (every Go map enjoys
this). -/
def nodupKeys : List (String × Value) → Bool
  | [] => true
  | (k, _) :: rest => !containsKey rest k && nodupKeys rest

/-- Read of `m[k]` when `m` is a `Value` expected to be a map: `Value.null`
for non-maps and absent keys, as in Go (a read through a nil map yields the
zero value). -/
def mget (v : Value) (key : String) : Value :=
  match v with
  | .obj fields => alookup fields key
  | _ => .null

mutual

/-- The model of `reflect.DeepEqual` on the dynamic trees the controller
manipulates: maps are compared by key set and pointwise values (Go maps are
unordered), lists positionally, scalars and `nil` exactly. -/
def vbeq : Value → Value → Bool
  | .null, .null => true
  | .boolean a, .boolean b => a == b
  | .str a, .str b => a == b
  | .num a, .num b => a == b
  | .empty, .empty => true
  | .obj a, .obj b =>
      vbeqFields a b && a.all (fun p => containsKey b p.1) &&
        b.all (fun p => containsKey a p.1)
  | .arr a, .arr b => vbeqList a b
  | _, _ => false

/-- Every field of `a` is present in `b` with a `vbeq`-equal value. -/
def vbeqFields : List (String × Value) → List (String × Value) → Bool
  | [], _ => true
  | (k, v) :: rest, b => vbeq v (alookup b k) && vbeqFields rest b

/-- Positional list equality under `vbeq`. -/
def vbeqList : List Value → List Value → Bool
  | [], [] => true
  | x :: xs, y :: ys => vbeq x y && vbeqList xs ys
  | _, _ => false

end

mutual

/-- Well-formed trees: every map has duplicate-free keys (guaranteed for
anything decoded from JSON/YAML or built by the Kubernetes machinery). -/
def wfv : Value → Bool
  | .obj fields => wfFields fields
  | .arr elems => wfList elems
  | _ => true

/-- Well-formed field lists: keys duplicate-free, values well-formed. -/
def wfFields : List (String × Value) → Bool
  | [] => true
  | (k, v) :: rest => !containsKey rest k && wfv v && wfFields rest

/-- All elements well-formed. -/
def wfList : List Value → Bool
  | [] => true
  | x :: xs => wfv x && wfList xs

end

/-- Numeric value of a decimal digit string, if it is one. -/
def digitsVal : List Char → Option Nat
  | [] => none
  | cs => cs.foldl (fun acc c =>
      match acc with
      | none => none
      | some n => if c.isDigit then some (n * 10 + (c.toNat - 48)) else none)
      (some 0)

/-- Multiplier for a Kubernetes resource-quantity suffix, expressed in
thousandths of the base unit (so `"m"` is 1 and the empty suffix 1000). -/
def suffixVal : String → Option Int
  | "" => some 1000
  | "m" => some 1
  | "k" => some 1000000
  | "K" => some 1000000
  | "M" => some 1000000000
  | "G" => some 1000000000000
  | "T" => some 1000000000000000
  | "Ki" => some 1024000
  | "Mi" => some (1024 * 1024 * 1000)
  | "Gi" => some (1024 * 1024 * 1024 * 1000)
  | "Ti" => some (1024 * 1024 * 1024 * 1024 * 1000)
  | _ => none

/-- Modelled from the spec: the external Numeric Comparator's parsing of a
scalar into a comparable magnitude, in thousandths of the base unit (spec
section 6: "resource-quantity strings (e.g. \"500m\", \"2Gi\") and plain
numbers").  The `rules.ResourceComparison` implementation lives in the
repository's `internal/controller/rules` package, which is not under
`src/`. -/
def parseQuantity : Value → Option Int
  | .num n => some (n * 1000)
  | .str s =>
      let cs := s.toList
      let ds := cs.takeWhile Char.isDigit
      let rest := cs.dropWhile Char.isDigit
      match digitsVal ds, suffixVal (String.mk rest) with
      | some n, some mult => some (n * mult)
      | _, _ => none
  | _ => none

/-- Modelled from the spec: the external comparator's strict order.  The
spec requires only "a total order sufficient to pick a larger/smaller side
deterministically, including a policy for comparing values of different
units/types"; parseable quantities compare by magnitude and any
unparseable value sorts below every parseable one. -/
def ltVal (a b : Value) : Bool :=
  match parseQuantity a, parseQuantity b with
  | some x, some y => decide (x < y)
  | none, some _ => true
  | _, _ => false

/-- Modelled from the spec: `rules.ResourceComparison(a, b)` returns the
pair `(max, min)` of its two arguments under the external comparator's
total order (spec section 6, "Numeric Comparator"); the implementation is in
the repository's `rules` package, not under `src/`. -/
def ResourceComparison (a b : Value) : Value × Value :=
  if ltVal a b then (b, a) else (a, b)

/-- The fixed allow-list of scalar keys the rule-filtered merge may combine
(`comparableKeys` in `mergeChangedMap`). -/
def comparableKeys : List String :=
  ["replicas", "cpu", "memory", "profile", "fipsEnabled", "fips_enabled",
   "instances", "max_connections", "shared_buffers"]

mutual

/-- Embedding of `mergeChangedMap(key, defaultMap, changedMap, finalMap,
directAssign)`.  The Go function mutates `finalMap[key]`, which at every
call site holds exactly the `changedMap` argument; the embedding returns
`some v` when the call leaves `v` in that slot (by assignment or by
mutating the aliased map/list) and `none` when it does not touch it.
`Value.null` plays Go's `nil`. -/
def mergeChangedMap (key : String) (defaultMap changedMap : Value)
    (directAssign : Bool) : Option Value :=
  if vbeq defaultMap changedMap then none else
  match defaultMap, changedMap with
  | .obj _, .null => some defaultMap
  | .obj dfs, .obj cfs => some (.obj (mergeFields directAssign dfs cfs))
  | .obj _, _ => none                  -- changed non-nil, non-map: untouched
  | .arr _, .null => some defaultMap
  | .arr ds, .arr cs => some (.arr (mergeArr directAssign ds 0 cs.length cs))
  | .arr _, _ => none                  -- changed non-nil, non-list: untouched
  | _, .null => some defaultMap        -- scalar: value not set in changed
  | _, _ =>
      if key ∈ comparableKeys then
        some (if directAssign then changedMap
              else (ResourceComparison defaultMap changedMap).1)
      else none                        -- non-allow-list scalar: untouched

/-- The `for newKey := range defaultMapRef` loop of the map case: fold over
the default's fields, updating the (aliased) changed map in place.  The
`reflect.DeepEqual` skip in `mergeCRsIntoOperandConfig`'s top-level loop is
the same check as the one at the head of `mergeChangedMap`, so this single
fold embeds both. -/
def mergeFields (directAssign : Bool) :
    List (String × Value) → List (String × Value) → List (String × Value)
  | [], acc => acc
  | (k, dv) :: rest, acc =>
      mergeFields directAssign rest
        (match mergeChangedMap k dv (alookup acc k) directAssign with
         | none => acc
         | some r => slotUpdate acc k r)

/-- The `for i := range defaultMapRef` loop of the list case: `clen` is the
length of the original changed list (Go's `changedMapRef`), `acc` the
evolving `finalMap[key]` slice.  Only default elements that are maps are
considered; when the changed list is too short the default element is
appended, otherwise it is merged field-by-field into the changed element
(whose cast to a map would panic in Go for a non-map element; the embedding
skips such elements). -/
def mergeArr (directAssign : Bool) :
    List Value → Nat → Nat → List Value → List Value
  | [], _, _, acc => acc
  | d :: rest, i, clen, acc =>
      let acc' :=
        match d with
        | .obj dfs =>
            if clen ≤ i then acc ++ [d]
            else
              match acc.get? i with
              | some (.obj cfs) => acc.set i (.obj (mergeFields directAssign dfs cfs))
              | _ => acc           -- Go would panic casting the element
        | _ => acc                 -- non-map default elements are skipped
      mergeArr directAssign rest (i + 1) clen acc'

end

mutual

/-- Embedding of `filterChangedMapWithRules(key, changedMap, rules,
finalMap)`: decides the fate of one changed entry given the rules value at
the same path.  `none` means the key is deleted from the containing map. -/
def filterChangedMapWithRules (changedMap rules : Value) : Option Value :=
  match changedMap with
  | .obj cfs =>
      match rules with
      | .null => none
      | .obj rfs => some (.obj (filterFields cfs rfs))
      | _ => none                  -- rules present but not a map: deleted
  | .null => some .null            -- nil changed value is kept
  | _ =>
      match rules with
      | .null => none              -- scalar/list with no rule: deleted
      | _ => some changedMap

/-- The `for key := range changedMap` loop of the filter: every key of the
changed map is filtered against the rules map, its entry deleted when the
filter says so. -/
def filterFields : List (String × Value) → List (String × Value) →
    List (String × Value)
  | [], _ => []
  | (k, v) :: rest, rfs =>
      match filterChangedMapWithRules v (alookup rfs k) with
      | none => filterFields rest rfs
      | some v' => (k, v') :: filterFields rest rfs

end

/-- Embedding of `mergeCRsIntoOperandConfig(defaultMap, changedMap, rules,
overwrite, directAssign)`: when `overwrite` is false the changed map is
first pruned against the rules, then every default key is merged in. -/
def mergeCRsIntoOperandConfig (defaultMap changedMap rules :
    List (String × Value)) (overwrite directAssign : Bool) :
    List (String × Value) :=
  let c := if overwrite then changedMap else filterFields changedMap rules
  mergeFields directAssign defaultMap c

/-- Embedding of `mergeCRsIntoOperandConfigWithDefaultRules(defaultMap,
changedMap, directAssign)`: the same default-keyed merge without the rule
filter. -/
def mergeCRsIntoOperandConfigWithDefaultRules
    (defaultMap changedMap : List (String × Value)) (directAssign : Bool) :
    List (String × Value) :=
  mergeFields directAssign defaultMap changedMap

/-- The two extreme-merge directions (`type Extreme string` with constants
`Max` and `Min`). -/
inductive Extreme where
  | Max
  | Min
deriving DecidableEq

mutual

/-- Embedding of `mergeChangedMapWithExtremeSize(key, defaultMap,
changedMap, finalMap, extreme)`.  The Go function mutates `finalMap[key]`,
which at every call site holds the `defaultMap` argument (the fold target
of `shrinkSize` is the default map); the embedding returns `some v` when
the call leaves `v` in that slot and `none` when it does not touch it.
The type switch is on the changed value. -/
def mergeChangedMapWithExtremeSize (defaultMap changedMap : Value)
    (extreme : Extreme) : Option Value :=
  if vbeq defaultMap changedMap then none else
  match changedMap with
  | .obj cfs =>
      match defaultMap with
      | .obj dfs => some (.obj (extremeFields extreme cfs dfs))
      | _ => none                  -- default not a map: nothing happens
  | .arr cs =>
      match defaultMap with
      | .arr ds => some (.arr (extremeArr extreme cs 0 ds))
      | _ => none                  -- default not a list: nothing happens
  | .null => none                  -- nil changed: default wins
  | _ =>
      match defaultMap with
      | .null => some changedMap   -- nil default, non-nil changed: adopted
      | _ =>
          match extreme with
          | .Max => some (ResourceComparison defaultMap changedMap).1
          | .Min => some (ResourceComparison defaultMap changedMap).2

/-- The `for newKey := range changedMapRef` loop of the map case: fold over
the changed map's fields, updating the (aliased) default map in place. -/
def extremeFields (extreme : Extreme) :
    List (String × Value) → List (String × Value) → List (String × Value)
  | [], acc => acc
  | (k, cv) :: rest, acc =>
      extremeFields extreme rest
        (match mergeChangedMapWithExtremeSize (alookup acc k) cv extreme with
         | none => acc
         | some r => slotUpdate acc k r)

/-- The `for i := range changedMapRef` loop of the list case: each changed
element that is a map is merged into the matching default element in place.
Go would panic when the changed element is not a map or the index exceeds
the default list; the embedding skips those elements. -/
def extremeArr (extreme : Extreme) :
    List Value → Nat → List Value → List Value
  | [], _, acc => acc
  | c :: rest, i, acc =>
      let acc' :=
        match c with
        | .obj cfs =>
            match acc.get? i with
            | some (.obj dfs) => acc.set i (.obj (extremeFields extreme cfs dfs))
            | _ => acc
        | _ => acc
      extremeArr extreme rest (i + 1) acc'

end

/-- The `for key := range defaultMap` loop of `shrinkSize`: fold over the
original entries of the default map; `acc` is the mutating map itself (each
key is written at most once, by its own iteration). -/
def shrinkGo (changedMap : List (String × Value)) (extreme : Extreme) :
    List (String × Value) → List (String × Value) → List (String × Value)
  | [], acc => acc
  | (k, dv) :: rest, acc =>
      shrinkGo changedMap extreme rest
        (match mergeChangedMapWithExtremeSize dv (alookup changedMap k)
            extreme with
         | none => acc
         | some r => slotUpdate acc k r)

/-- Embedding of `shrinkSize(defaultMap, changedMap, extreme)`: walks the
default map's keys (`shrinkGo` is the loop, folding over the original
entries with the map itself as accumulator) and merges the changed value
into the default in place, taking the extreme of scalars present in
both. -/
def shrinkSize (defaultMap changedMap : List (String × Value))
    (extreme : Extreme) : List (String × Value) :=
  shrinkGo changedMap extreme defaultMap defaultMap

/-- The package-level `nonDefaultProfileController` table: the independent
(non-default) controller modes. -/
def nonDefaultProfileController : List String := ["turbo", "turbonomic", "vpa"]

/-- `m[k]` with presence, on a Go `map[string]string`. -/
def lookupStr : List (String × String) → String → Option String
  | [], _ => none
  | (k, v) :: rest, key => if k = key then some v else lookupStr rest key

/-- `m[k] = v` on a Go `map[string]string`. -/
def updateStr : List (String × String) → String → String →
    List (String × String)
  | [], key, v => [(key, v)]
  | (k, w) :: rest, key, v =>
      if k = key then (k, v) :: rest else (k, w) :: updateStr rest key v

/-- Duplicate-free keys of a `map[string]string` association list. -/
def nodupKeysS : List (String × String) → Bool
  | [] => true
  | (k, _) :: rest => !(lookupStr rest k).isSome && nodupKeysS rest

/-- Embedding of `mergeProfileController(serviceControllerMappingSummary,
serviceControllerMapping)`: folds the incoming per-operand controller modes
into the summary. -/
def mergeProfileController :
    List (String × String) → List (String × String) → List (String × String)
  | summary, [] => summary
  | summary, (op, pc) :: rest =>
      let summary' :=
        match lookupStr summary op with
        | some summaryProfileController =>
            if pc ∈ nonDefaultProfileController ∧
               summaryProfileController ∉ nonDefaultProfileController then
              updateStr summary op pc
            else summary
        | none => summary ++ [(op, pc)]
      mergeProfileController summary' rest

/-- The fixed `requiredResetKeys` of `resetChangedMap`. -/
def requiredResetKeys : List String := ["replicas", "cpu", "memory"]

mutual

/-- Embedding of `resetChangedMap(key, changedMap, rulesForCR, finalMap)`
for one entry: given the rules value found at this entry's key, `none`
means the entry is deleted from its containing map. -/
def resetChangedMap (key : String) (changedMap rules : Value) : Option Value :=
  match rules with
  | .null => some changedMap       -- no rule at this key: untouched
  | _ =>
      match changedMap with
      | .obj cfs =>
          match rules with
          | .obj rfs => some (.obj (resetFields cfs rfs))
          | _ => some changedMap   -- rule not a map: map value untouched
      | _ =>
          if key ∈ requiredResetKeys then none else some changedMap

/-- The `for newKey := range changedMapRef` loop of the map case of
`resetChangedMap`. -/
def resetFields (cfs rfs : List (String × Value)) : List (String × Value) :=
  match cfs with
  | [] => []
  | (k, v) :: rest =>
      match resetChangedMap k v (alookup rfs k) with
      | none => resetFields rest rfs
      | some v' => (k, v') :: resetFields rest rfs

end

/-- Embedding of `resetResourceInTemplate(changedMap, cr, rules)`: fetches
the rules for the CR kind (nil-safe) and resets the managed fields of the
spec.  When `rules["spec"][cr]` is present but not a map the Go cast would
panic; the embedding leaves the spec untouched. -/
def resetResourceInTemplate (changedMap : List (String × Value))
    (cr : String) (rules : Value) : List (String × Value) :=
  match mget (mget rules "spec") cr with
  | .obj rfs => resetFields changedMap rfs
  | _ => changedMap

/-- The string read `v[k].(string)`: `some s` when the field holds a
string.  The Go cast would panic on a non-string non-nil value; reads that
feed a comparison treat that as a mismatch here. -/
def strField (v : Value) (k : String) : Option String :=
  match mget v k with
  | .str s => some s
  | _ => none

/-- Embedding of `getItemByName(slice, name)`: first item whose `name`
field is the given string, `Value.null` when there is none. -/
def getItemByName : List Value → String → Value
  | [], _ => .null
  | item :: rest, name =>
      if strField item "name" = some name then item
      else getItemByName rest name

/-- Embedding of `getItemByGVKNameNamespace(opResources, opconNs,
apiVersion, kind, name, namespace)`: first resource matching on apiVersion,
kind and name whose namespace (defaulting to the OperandConfig namespace
when the field is absent) matches. -/
def getItemByGVKNameNamespace :
    List Value → String → String → String → String → String → Value
  | [], _, _, _, _, _ => .null
  | r :: rest, opconNs, apiVersion, kind, name, ns =>
      if strField r "apiVersion" = some apiVersion ∧
         strField r "kind" = some kind ∧ strField r "name" = some name then
        match r with
        | .obj fields =>
            if containsKey fields "namespace" then
              if strField r "namespace" = some ns then r
              else getItemByGVKNameNamespace rest opconNs apiVersion kind name ns
            else
              if opconNs = ns then r
              else getItemByGVKNameNamespace rest opconNs apiVersion kind name ns
        | _ => getItemByGVKNameNamespace rest opconNs apiVersion kind name ns
      else getItemByGVKNameNamespace rest opconNs apiVersion kind name ns

/-- Embedding of `isOpResourceExists(opResource)`: `data`, `data.spec` and
`data.spec.resources` are all non-nil. -/
def isOpResourceExists (opResource : Value) : Bool :=
  match mget opResource "data" with
  | .null => false
  | _ =>
      match mget (mget opResource "data") "spec" with
      | .null => false
      | _ =>
          match mget (mget (mget opResource "data") "spec") "resources" with
          | .null => false
          | _ => true

/-- Replace the binding of `key` inside the map sitting at `outer[inner]`,
used to spell out the nested in-place writes of the Go code. -/
def setIn (v : Value) (key : String) (newV : Value) : Value :=
  match v with
  | .obj fields => .obj (slotUpdate fields key newV)
  | _ => v

/-- Embedding of the in-place write
`res["data"]["spec"]["resources"]["limits"]["cpu"] = struct{}{}` performed
on an autoscaler-governed matched resource.  Each Go cast on the path would
panic on a non-map; the embedding returns the resource unchanged then. -/
def resetLimitsCpu (res : Value) : Value :=
  match mget res "data" with
  | .obj dataFields =>
      match alookup dataFields "spec" with
      | .obj specFields =>
          match alookup specFields "resources" with
          | .obj resourcesFields =>
              match alookup resourcesFields "limits" with
              | .obj limitsFields =>
                  setIn res "data" (setIn (.obj dataFields) "spec"
                    (setIn (.obj specFields) "resources"
                      (setIn (.obj resourcesFields) "limits"
                        (.obj (slotUpdate limitsFields "cpu" .empty)))))
              | _ => res
          | _ => res
      | _ => res
  | _ => res

/-- The conditional autoscaler reset applied to a matched new resource in
`updateOperandConfig` (lines 465–469) and `mergeCSCRs` (lines 167–172):
only under a non-default controller mode, and only when
`isOpResourceExists` holds. -/
def applyControllerReset (serviceControllerNonDefault : Bool)
    (newResource : Value) : Value :=
  if serviceControllerNonDefault ∧ isOpResourceExists newResource then
    resetLimitsCpu newResource
  else newResource

/-- One iteration of the `for i, opResource := range opResources` loop of
`updateOperandConfig` (lines 434–472): validate the resource identity
(yielding a warning and skipping on failure), default the namespace, look
up the matching new resource and merge it (after the conditional
autoscaler reset).  Returns the new slice entry and whether a warning was
logged. -/
def processOpResource (serviceControllerNonDefault : Bool)
    (newResources : Value) (opconNs : String) (opResource : Value) :
    Value × Bool :=
  let apiVersion := (strField opResource "apiVersion").getD ""
  let kind := (strField opResource "kind").getD ""
  let name := (strField opResource "name").getD ""
  let ns0 := (strField opResource "namespace").getD ""
  if apiVersion = "" ∨ kind = "" ∨ name = "" then (opResource, true)
  else
    let ns := if ns0 = "" then opconNs else ns0
    match newResources with
    | .arr newRs =>
        match getItemByGVKNameNamespace newRs opconNs apiVersion kind name ns with
        | .null => (opResource, false)
        | found =>
            let newResource :=
              applyControllerReset serviceControllerNonDefault found
            match opResource, newResource with
            | .obj opFields, .obj newFields =>
                (.obj (mergeCRsIntoOperandConfigWithDefaultRules
                  opFields newFields true), false)
            | _, _ => (opResource, false)   -- Go would panic on the casts
    | _ => (opResource, false)             -- `resources` nil: skipped

/-- The whole resources loop of `updateOperandConfig`: each entry of the
slice is rewritten by `processOpResource`; the returned list of indices
records which entries were skipped with a warning. -/
def updateOpResources (serviceControllerNonDefault : Bool)
    (newResources : Value) (opconNs : String) :
    List Value → Nat → List Value × List Nat
  | [], _ => ([], [])
  | r :: rest, i =>
      let (r', warned) :=
        processOpResource serviceControllerNonDefault newResources opconNs r
      let (rest', warns) :=
        updateOpResources serviceControllerNonDefault newResources opconNs rest (i + 1)
      (r' :: rest', if warned then i :: warns else warns)

/-- Modelled from the spec: `rules.ResourceEqualComparison(a, b)` — the
recursive field-by-field structural equality used for the final
idempotence check (spec sections 4.4 step 5 and 9: map keys unordered,
lists ordered, scalars exact).  The implementation is in the repository's
`rules` package, not under `src/`. -/
def ResourceEqualComparison (a b : Value) : Bool := vbeq a b

/-- The service's `name` field as a string (Go asserts
`opService["name"].(string)`). -/
def nameOf (v : Value) : String :=
  match mget v "name" with
  | .str s => s
  | _ => ""

/-- The `isEqual` computation of `updateOperandConfig` (lines 487–502) for
one service: every CR spec of the merged service is compared against the
corresponding CR spec of the snapshot service of the same name.  Services
with a nil spec are skipped. -/
def specsEqualForService (existingServices : List Value) (opService : Value) :
    Bool :=
  match mget opService "spec" with
  | .null => true
  | .obj crs =>
      crs.all fun p =>
        ResourceEqualComparison
          (mget (mget (getItemByName existingServices
            (nameOf opService)) "spec") p.1) p.2
  | _ => true                       -- Go would panic casting the spec

/-- The full `isEqual` loop: the early `break` of the Go loop is the
conjunction over all services. -/
def computeIsEqual (opconServices existingServices : List Value) : Bool :=
  opconServices.all (specsEqualForService existingServices)

/-! ### Basic lemmas about the association-list primitives -/

theorem alookup_eq_fget (l : List (String × Value)) (k : String) :
    alookup l k = (fget l k).getD .null := by
  induction l with
  | nil => rfl
  | cons p rest ih =>
      obtain ⟨k', v⟩ := p
      by_cases h : k' = k <;> simp [alookup, fget, h, ih]

theorem containsKey_eq_isSome_fget (l : List (String × Value)) (k : String) :
    containsKey l k = (fget l k).isSome := by
  induction l with
  | nil => rfl
  | cons p rest ih =>
      obtain ⟨k', v⟩ := p
      by_cases h : k' = k <;> simp [containsKey, fget, h, ih]

theorem fget_slotUpdate_self (l : List (String × Value)) (k : String)
    (v : Value) : fget (slotUpdate l k v) k = some v := by
  induction l with
  | nil => simp [slotUpdate, fget]
  | cons p rest ih =>
      obtain ⟨k', w⟩ := p
      by_cases h : k' = k <;> simp [slotUpdate, fget, h, ih]

theorem fget_slotUpdate_ne (l : List (String × Value)) (k k' : String)
    (v : Value) (h : k ≠ k') : fget (slotUpdate l k v) k' = fget l k' := by
  induction l with
  | nil => simp [slotUpdate, fget, h]
  | cons p rest ih =>
      obtain ⟨k0, w⟩ := p
      by_cases h0 : k0 = k
      · subst h0; simp [slotUpdate, fget, h]
      · by_cases h1 : k0 = k' <;>
          simp [slotUpdate, fget, h0, h1, Ne.symm h, ih]

theorem alookup_slotUpdate_ne (l : List (String × Value)) (k k' : String)
    (v : Value) (h : k ≠ k') : alookup (slotUpdate l k v) k' = alookup l k' := by
  rw [alookup_eq_fget, alookup_eq_fget, fget_slotUpdate_ne l k k' v h]

/-! ### Lookup characterization of the merge folds -/

/-- The changed-map slot after one step of the default-keyed fold. -/
def mergeStep (directAssign : Bool) (k : String) (dv : Value)
    (acc : List (String × Value)) : List (String × Value) :=
  match mergeChangedMap k dv (alookup acc k) directAssign with
  | none => acc
  | some r => slotUpdate acc k r

theorem mergeFields_cons (directAssign : Bool) (k : String) (dv : Value)
    (rest acc : List (String × Value)) :
    mergeFields directAssign ((k, dv) :: rest) acc =
      mergeFields directAssign rest (mergeStep directAssign k dv acc) := by
  rfl

theorem fget_mergeFields_notin (directAssign : Bool)
    (dfs acc : List (String × Value)) (k : String)
    (h : containsKey dfs k = false) :
    fget (mergeFields directAssign dfs acc) k = fget acc k := by
  induction dfs generalizing acc with
  | nil => rfl
  | cons p rest ih =>
      obtain ⟨k0, dv⟩ := p
      simp only [containsKey, Bool.or_eq_false_iff, decide_eq_false_iff_not]
        at h
      rw [mergeFields_cons, ih _ h.2]
      unfold mergeStep
      cases mergeChangedMap k0 dv (alookup acc k0) directAssign with
      | none => rfl
      | some r => exact fget_slotUpdate_ne acc k0 k r h.1

/-- What the default-keyed fold leaves at key `k`: untouched unless the
default map binds `k`, in which case `mergeChangedMap` decides. -/
theorem fget_mergeFields (directAssign : Bool)
    (dfs acc : List (String × Value)) (k : String)
    (hnd : nodupKeys dfs = true) :
    fget (mergeFields directAssign dfs acc) k =
      if containsKey dfs k then
        match mergeChangedMap k (alookup dfs k) (alookup acc k)
            directAssign with
        | none => fget acc k
        | some r => some r
      else fget acc k := by
  induction dfs generalizing acc with
  | nil => rfl
  | cons p rest ih =>
      obtain ⟨k0, dv⟩ := p
      simp only [nodupKeys, Bool.and_eq_true, Bool.not_eq_true'] at hnd
      by_cases h : k0 = k
      · subst h
        rw [mergeFields_cons, fget_mergeFields_notin _ _ _ _ hnd.1]
        have h1 : containsKey ((k0, dv) :: rest) k0 = true := by
          simp [containsKey]
        have h2 : alookup ((k0, dv) :: rest) k0 = dv := by simp [alookup]
        rw [h1, h2]
        unfold mergeStep
        cases hm : mergeChangedMap k0 dv (alookup acc k0) directAssign with
        | none => simp [hm]
        | some r => simp [hm, fget_slotUpdate_self]
      · rw [mergeFields_cons, ih _ hnd.2]
        have hacc : alookup (mergeStep directAssign k0 dv acc) k
            = alookup acc k := by
          unfold mergeStep
          cases mergeChangedMap k0 dv (alookup acc k0) directAssign with
          | none => rfl
          | some r => exact alookup_slotUpdate_ne acc k0 k r h
        have hacc' : fget (mergeStep directAssign k0 dv acc) k
            = fget acc k := by
          unfold mergeStep
          cases mergeChangedMap k0 dv (alookup acc k0) directAssign with
          | none => rfl
          | some r => exact fget_slotUpdate_ne acc k0 k r h
        simp [containsKey, alookup, h, hacc, hacc']

/-- The default-map slot after one step of the changed-keyed extreme
fold. -/
def extremeStep (extreme : Extreme) (k : String) (cv : Value)
    (acc : List (String × Value)) : List (String × Value) :=
  match mergeChangedMapWithExtremeSize (alookup acc k) cv extreme with
  | none => acc
  | some r => slotUpdate acc k r

theorem extremeFields_cons (extreme : Extreme) (k : String) (cv : Value)
    (rest acc : List (String × Value)) :
    extremeFields extreme ((k, cv) :: rest) acc =
      extremeFields extreme rest (extremeStep extreme k cv acc) := by
  rfl

theorem fget_extremeFields_notin (extreme : Extreme)
    (cfs acc : List (String × Value)) (k : String)
    (h : containsKey cfs k = false) :
    fget (extremeFields extreme cfs acc) k = fget acc k := by
  induction cfs generalizing acc with
  | nil => rfl
  | cons p rest ih =>
      obtain ⟨k0, cv⟩ := p
      simp only [containsKey, Bool.or_eq_false_iff, decide_eq_false_iff_not]
        at h
      rw [extremeFields_cons, ih _ h.2]
      unfold extremeStep
      cases mergeChangedMapWithExtremeSize (alookup acc k0) cv extreme with
      | none => rfl
      | some r => exact fget_slotUpdate_ne acc k0 k r h.1

/-- What the changed-keyed extreme fold leaves at key `k`: untouched unless
the changed map binds `k`, in which case `mergeChangedMapWithExtremeSize`
decides. -/
theorem fget_extremeFields (extreme : Extreme)
    (cfs acc : List (String × Value)) (k : String)
    (hnd : nodupKeys cfs = true) :
    fget (extremeFields extreme cfs acc) k =
      if containsKey cfs k then
        match mergeChangedMapWithExtremeSize (alookup acc k) (alookup cfs k)
            extreme with
        | none => fget acc k
        | some r => some r
      else fget acc k := by
  induction cfs generalizing acc with
  | nil => rfl
  | cons p rest ih =>
      obtain ⟨k0, cv⟩ := p
      simp only [nodupKeys, Bool.and_eq_true, Bool.not_eq_true'] at hnd
      by_cases h : k0 = k
      · subst h
        rw [extremeFields_cons, fget_extremeFields_notin _ _ _ _ hnd.1]
        have h1 : containsKey ((k0, cv) :: rest) k0 = true := by
          simp [containsKey]
        have h2 : alookup ((k0, cv) :: rest) k0 = cv := by simp [alookup]
        rw [h1, h2]
        unfold extremeStep
        cases hm : mergeChangedMapWithExtremeSize (alookup acc k0) cv
            extreme with
        | none => simp [hm]
        | some r => simp [hm, fget_slotUpdate_self]
      · rw [extremeFields_cons, ih _ hnd.2]
        have hacc : alookup (extremeStep extreme k0 cv acc) k
            = alookup acc k := by
          unfold extremeStep
          cases mergeChangedMapWithExtremeSize (alookup acc k0) cv extreme
            with
          | none => rfl
          | some r => exact alookup_slotUpdate_ne acc k0 k r h
        have hacc' : fget (extremeStep extreme k0 cv acc) k = fget acc k := by
          unfold extremeStep
          cases mergeChangedMapWithExtremeSize (alookup acc k0) cv extreme
            with
          | none => rfl
          | some r => exact fget_slotUpdate_ne acc k0 k r h
        simp [containsKey, alookup, h, hacc, hacc']

/-- The default-map slot after one step of the `shrinkSize` loop (the
default value comes from the original entry, the changed value from the
fixed changed map). -/
def shrinkStep (changedMap : List (String × Value)) (extreme : Extreme)
    (k : String) (dv : Value) (acc : List (String × Value)) :
    List (String × Value) :=
  match mergeChangedMapWithExtremeSize dv (alookup changedMap k) extreme with
  | none => acc
  | some r => slotUpdate acc k r

theorem shrinkGo_cons (changedMap : List (String × Value))
    (extreme : Extreme) (k : String) (dv : Value)
    (rest acc : List (String × Value)) :
    shrinkGo changedMap extreme ((k, dv) :: rest) acc =
      shrinkGo changedMap extreme rest
        (shrinkStep changedMap extreme k dv acc) := by
  rfl

theorem fget_shrinkGo_notin (changedMap : List (String × Value))
    (extreme : Extreme) (ds acc : List (String × Value)) (k : String)
    (h : containsKey ds k = false) :
    fget (shrinkGo changedMap extreme ds acc) k = fget acc k := by
  induction ds generalizing acc with
  | nil => rfl
  | cons p rest ih =>
      obtain ⟨k0, dv⟩ := p
      simp only [containsKey, Bool.or_eq_false_iff, decide_eq_false_iff_not]
        at h
      rw [shrinkGo_cons, ih _ h.2]
      unfold shrinkStep
      cases mergeChangedMapWithExtremeSize dv (alookup changedMap k0)
          extreme with
      | none => rfl
      | some r => exact fget_slotUpdate_ne acc k0 k r h.1

/-- `shrinkSize` never touches a key absent from the default map: the loop
ranges over the default's keys only. -/
theorem fget_shrinkSize_notin (defaultMap changedMap : List (String × Value))
    (extreme : Extreme) (k : String)
    (h : containsKey defaultMap k = false) :
    fget (shrinkSize defaultMap changedMap extreme) k = none := by
  rw [shrinkSize, fget_shrinkGo_notin _ _ _ _ _ h]
  rw [containsKey_eq_isSome_fget] at h
  cases hf : fget defaultMap k with
  | none => rfl
  | some v => rw [hf] at h; simp at h

theorem filterFields_cons (k : String) (v : Value)
    (rest rfs : List (String × Value)) :
    filterFields ((k, v) :: rest) rfs =
      match filterChangedMapWithRules v (alookup rfs k) with
      | none => filterFields rest rfs
      | some v' => (k, v') :: filterFields rest rfs := by
  rfl

theorem fget_filterFields_notin (cfs rfs : List (String × Value))
    (k : String) (h : containsKey cfs k = false) :
    fget (filterFields cfs rfs) k = none := by
  induction cfs with
  | nil => rfl
  | cons p rest ih =>
      obtain ⟨k0, v⟩ := p
      simp only [containsKey, Bool.or_eq_false_iff, decide_eq_false_iff_not]
        at h
      rw [filterFields_cons]
      cases filterChangedMapWithRules v (alookup rfs k0) with
      | none => exact ih h.2
      | some v' => simp [fget, h.1, ih h.2]

/-- What the rule filter leaves at key `k`: the changed entry fed through
`filterChangedMapWithRules` against the rules entry of the same key. -/
theorem fget_filterFields (cfs rfs : List (String × Value)) (k : String)
    (hnd : nodupKeys cfs = true) :
    fget (filterFields cfs rfs) k =
      (fget cfs k).bind
        (fun v => filterChangedMapWithRules v (alookup rfs k)) := by
  induction cfs with
  | nil => rfl
  | cons p rest ih =>
      obtain ⟨k0, v⟩ := p
      simp only [nodupKeys, Bool.and_eq_true, Bool.not_eq_true'] at hnd
      by_cases h : k0 = k
      · subst h
        rw [filterFields_cons]
        cases hf : filterChangedMapWithRules v (alookup rfs k0) with
        | none => simp [fget, fget_filterFields_notin rest rfs k0 hnd.1, hf]
        | some v' => simp [fget, hf]
      · rw [filterFields_cons]
        cases hf : filterChangedMapWithRules v (alookup rfs k0) with
        | none => simp [fget, h, ih hnd.2]
        | some v' => simp [fget, h, ih hnd.2]

/-! ### Small facts about `vbeq`, the slot merges and the filter -/

/-- A non-nil scalar: neither a map, nor a list, nor Go `nil`. -/
def isScalarValue : Value → Bool
  | .null => false
  | .obj _ => false
  | .arr _ => false
  | _ => true

theorem vbeq_null_right_eq_false (v : Value) (h : v ≠ .null) :
    vbeq v .null = false := by
  cases v <;> simp [vbeq] at h ⊢

theorem vbeq_null_right_scalar (v : Value) (h : isScalarValue v = true) :
    vbeq v .null = false := by
  cases v <;> simp [isScalarValue] at h <;> simp [vbeq]

theorem vbeq_null_left_scalar (v : Value) (h : isScalarValue v = true) :
    vbeq .null v = false := by
  cases v <;> simp [isScalarValue] at h <;> simp [vbeq]

/-- Merging a nil changed slot restores the default value verbatim. -/
theorem mergeChangedMap_null_changed (key : String) (dv : Value)
    (directAssign : Bool) (h : dv ≠ .null) :
    mergeChangedMap key dv .null directAssign = some dv := by
  cases dv <;> simp_all [mergeChangedMap, vbeq]

theorem mergeChangedMap_null_null (key : String) (directAssign : Bool) :
    mergeChangedMap key .null .null directAssign = none := by
  simp [mergeChangedMap, vbeq]

/-- A non-allow-list scalar default key never writes: the changed value
(non-nil) stays whatever it is. -/
theorem mergeChangedMap_not_comparable (key : String) (dv cv : Value)
    (directAssign : Bool) (hk : key ∉ comparableKeys)
    (hd1 : ∀ fs, dv ≠ .obj fs) (hd2 : ∀ es, dv ≠ .arr es)
    (hc : cv ≠ .null) :
    mergeChangedMap key dv cv directAssign = none := by
  cases dv with
  | obj fs => exact absurd rfl (hd1 fs)
  | arr es => exact absurd rfl (hd2 es)
  | null => cases cv <;> simp_all [mergeChangedMap, vbeq]
  | boolean b => cases cv <;> simp_all [mergeChangedMap, vbeq]
  | str s => cases cv <;> simp_all [mergeChangedMap, vbeq]
  | num n => cases cv <;> simp_all [mergeChangedMap, vbeq]
  | empty => cases cv <;> simp_all [mergeChangedMap, vbeq]

/-- A changed value with no rule at its path is deleted, unless it is Go
`nil` (which the scalar branch of the filter keeps). -/
theorem filterChangedMapWithRules_nullrule (v : Value) :
    filterChangedMapWithRules v .null = none ∨
      filterChangedMapWithRules v .null = some .null := by
  cases v <;> simp [filterChangedMapWithRules]

/-- After the filter, a key whose rules entry is absent reads as nil. -/
theorem alookup_filterFields_nullrule (cfs rfs : List (String × Value))
    (k : String) (hnd : nodupKeys cfs = true) (h : alookup rfs k = .null) :
    alookup (filterFields cfs rfs) k = .null := by
  rw [alookup_eq_fget, fget_filterFields _ _ _ hnd, h]
  cases hf : fget cfs k with
  | none => rfl
  | some v =>
      rcases filterChangedMapWithRules_nullrule v with h' | h' <;> simp [h']

/-- A nil default against a non-nil scalar changed value is adopted by the
extreme merge. -/
theorem extreme_null_default (cv : Value) (extreme : Extreme)
    (h : isScalarValue cv = true) :
    mergeChangedMapWithExtremeSize .null cv extreme = some cv := by
  cases cv <;> simp_all [mergeChangedMapWithExtremeSize, vbeq, isScalarValue]

/-! ### C1: rule-filtering round trip -/

/-- C1: counterexample.  The claim says that for the documented scenario the
result is exactly `{replicas: 3, cpu: "200m"}` with `foo` absent; the code
instead restores `foo` from the default, producing
`{replicas: 3, cpu: "200m", foo: "bar"}`. -/
theorem C1_counterexample :
    mergeCRsIntoOperandConfig
      [("replicas", .num 1), ("cpu", .str "200m"), ("foo", .str "bar")]
      [("replicas", .num 3), ("cpu", .str "100m"), ("foo", .str "baz")]
      [("replicas", .obj []), ("cpu", .obj [])] false false
    = [("replicas", .num 3), ("cpu", .str "200m"), ("foo", .str "bar")] ∧
    containsKey
      (mergeCRsIntoOperandConfig
        [("replicas", .num 1), ("cpu", .str "200m"), ("foo", .str "bar")]
        [("replicas", .num 3), ("cpu", .str "100m"), ("foo", .str "baz")]
        [("replicas", .obj []), ("cpu", .obj [])] false false) "foo"
    = true :=
  ⟨rfl, rfl⟩

/-- C1 (amended): with `overwrite=false`, a top-level field whose path is
absent from the rules never takes the changed value — it is first pruned
from `changed` and then reverted to the default's value (so it reads as the
default's value, and is absent only when the default also lacks it); the
documented scenario therefore yields
`{replicas: 3, cpu: "200m", foo: "bar"}`. -/
theorem C1_amended :
    (∀ (defaultMap changedMap rules : List (String × Value))
       (directAssign : Bool) (k : String),
       nodupKeys defaultMap = true → nodupKeys changedMap = true →
       alookup rules k = .null →
       alookup (mergeCRsIntoOperandConfig defaultMap changedMap rules false
         directAssign) k = alookup defaultMap k)
    ∧ mergeCRsIntoOperandConfig
        [("replicas", .num 1), ("cpu", .str "200m"), ("foo", .str "bar")]
        [("replicas", .num 3), ("cpu", .str "100m"), ("foo", .str "baz")]
        [("replicas", .obj []), ("cpu", .obj [])] false false
      = [("replicas", .num 3), ("cpu", .str "200m"), ("foo", .str "bar")] := by
  refine ⟨?_, rfl⟩
  intro defaultMap changedMap rules directAssign k hD hC hR
  have hc1 : alookup (filterFields changedMap rules) k = .null :=
    alookup_filterFields_nullrule changedMap rules k hC hR
  have hunf : mergeCRsIntoOperandConfig defaultMap changedMap rules false
      directAssign
      = mergeFields directAssign defaultMap (filterFields changedMap rules) := by
    rfl
  rw [hunf, alookup_eq_fget,
    fget_mergeFields directAssign defaultMap _ k hD]
  by_cases hk : containsKey defaultMap k = true
  · rw [if_pos hk, hc1]
    by_cases hdv : alookup defaultMap k = .null
    · rw [hdv, mergeChangedMap_null_null]
      simp [← alookup_eq_fget, hc1, hdv]
    · rw [mergeChangedMap_null_changed k _ directAssign hdv]
      simp
  · rw [if_neg hk, ← alookup_eq_fget, hc1]
    rw [containsKey_eq_isSome_fget] at hk
    rw [alookup_eq_fget]
    cases hf : fget defaultMap k with
    | none => simp
    | some v => rw [hf] at hk; simp at hk

/-- C1: witness for the amended general statement at a concrete input. -/
theorem C1_witness :
    (nodupKeys [("foo", Value.str "bar")] = true ∧
     nodupKeys [("foo", Value.str "baz")] = true ∧
     alookup [] "foo" = Value.null) ∧
    alookup (mergeCRsIntoOperandConfig [("foo", Value.str "bar")]
      [("foo", Value.str "baz")] [] false true) "foo"
      = alookup [("foo", Value.str "bar")] "foo" :=
  ⟨⟨rfl, rfl, rfl⟩,
    C1_amended.1 [("foo", Value.str "bar")] [("foo", Value.str "baz")] []
      true "foo" rfl rfl rfl⟩

/-! ### C3: allow-list enforcement -/

/-- C3: counterexample.  For the scalar key `other`, not in the allow-list,
with `directAssign=false` and a rule permitting the key, the merge keeps
the changed value `"b"`; the claim says the default `"a"` is kept. -/
theorem C3_counterexample :
    mergeCRsIntoOperandConfig [("other", .str "a")] [("other", .str "b")]
      [("other", .obj [])] false false = [("other", .str "b")] ∧
    Value.str "b" ≠ Value.str "a" :=
  ⟨rfl, by simp⟩

/-- C3 (amended): for a scalar key not in the allow-list, the rule-filtered
merge never writes the slot at all: whenever the (filtered) changed map has
a non-nil value there, that changed value is what remains — the default
wins only when the changed value is nil (for instance because the filter
pruned it). -/
theorem C3_amended :
    ∀ (directAssign : Bool) (dfs acc : List (String × Value)) (k : String),
      nodupKeys dfs = true → k ∉ comparableKeys →
      (∀ fs, alookup dfs k ≠ .obj fs) → (∀ es, alookup dfs k ≠ .arr es) →
      alookup acc k ≠ .null →
      alookup (mergeFields directAssign dfs acc) k = alookup acc k := by
  intro directAssign dfs acc k hnd hk hd1 hd2 hc
  rw [alookup_eq_fget, fget_mergeFields directAssign dfs acc k hnd]
  by_cases hin : containsKey dfs k = true
  · rw [if_pos hin,
      mergeChangedMap_not_comparable k _ _ directAssign hk hd1 hd2 hc,
      ← alookup_eq_fget]
  · rw [if_neg hin, ← alookup_eq_fget]

/-- C3: witness for the amended statement at a concrete input. -/
theorem C3_witness :
    (nodupKeys [("other", Value.str "a")] = true ∧
     "other" ∉ comparableKeys ∧
     alookup [("other", Value.str "b")] "other" ≠ Value.null) ∧
    alookup (mergeFields false [("other", Value.str "a")]
      [("other", Value.str "b")]) "other"
      = alookup [("other", Value.str "b")] "other" :=
  ⟨⟨rfl, by decide, by simp [alookup]⟩,
    C3_amended false [("other", Value.str "a")] [("other", Value.str "b")]
      "other" rfl (by decide) (by simp [alookup]) (by simp [alookup])
      (by simp [alookup])⟩

/-! ### C4: extreme merge adoption of changed-only fields -/

/-- C4: counterexample.  A top-level field present only in `changed` is not
adopted by `shrinkSize` (its loop ranges over the default's keys only), and
neither is a nested changed-only map; the claim says both are adopted
unconditionally. -/
theorem C4_counterexample :
    shrinkSize [] [("a", .num 1)] .Max = [] ∧
    shrinkSize [("k", .obj [])]
      [("k", .obj [("m", .obj [("x", .num 1)])])] .Max = [("k", .obj [])] :=
  ⟨rfl, rfl⟩

/-- C4 (amended): a changed-only field is adopted only where the recursion
reaches it — a non-nil scalar bound in a changed map merged against a
default map adopts (nil default, non-nil changed scalar wins), while
top-level keys absent from the default are never examined (and, per the
counterexample, changed-only map subtrees are likewise not adopted). -/
theorem C4_amended :
    (∀ (extreme : Extreme) (cfs dfs : List (String × Value)) (j : String)
       (cv : Value),
       nodupKeys cfs = true → containsKey cfs j = true →
       alookup cfs j = cv → isScalarValue cv = true →
       alookup dfs j = .null →
       alookup (extremeFields extreme cfs dfs) j = cv)
    ∧ (∀ (defaultMap changedMap : List (String × Value)) (extreme : Extreme)
         (k : String),
       containsKey defaultMap k = false →
       fget (shrinkSize defaultMap changedMap extreme) k = none) := by
  constructor
  · intro extreme cfs dfs j cv hnd hin hcv hsc hdv
    rw [alookup_eq_fget, fget_extremeFields extreme cfs dfs j hnd,
      if_pos hin, hcv, hdv, extreme_null_default cv extreme hsc]
    rfl
  · intro defaultMap changedMap extreme k h
    exact fget_shrinkSize_notin defaultMap changedMap extreme k h

/-- C4: witness for the amended statement at concrete inputs. -/
theorem C4_witness :
    (nodupKeys [("x", Value.num 1)] = true ∧
     containsKey [("x", Value.num 1)] "x" = true ∧
     isScalarValue (Value.num 1) = true ∧
     alookup [("y", Value.num 5)] "x" = Value.null ∧
     containsKey [("k", Value.num 5)] "a" = false) ∧
    alookup (extremeFields .Max [("x", Value.num 1)]
      [("y", Value.num 5)]) "x" = Value.num 1 ∧
    fget (shrinkSize [("k", Value.num 5)] [("a", Value.num 3)] .Min) "a"
      = none :=
  ⟨⟨rfl, rfl, rfl, rfl, rfl⟩,
    C4_amended.1 .Max [("x", Value.num 1)] [("y", Value.num 5)] "x"
      (Value.num 1) rfl rfl rfl rfl rfl,
    C4_amended.2 [("k", Value.num 5)] [("a", Value.num 3)] .Min "a" rfl⟩

/-! ### C9: short-list padding -/

/-- C9: counterexample.  Merging a default list of length 3 whose elements
are scalars against a changed list of length 1 yields the changed list of
length 1 unchanged — non-map default elements are skipped entirely, so
nothing is padded; the claim says the result always has length 3 with
positions 1–2 copied from the default. -/
theorem C9_counterexample :
    mergeCRsIntoOperandConfigWithDefaultRules
      [("k", .arr [.num 1, .num 2, .num 3])] [("k", .arr [.num 9])] false
    = [("k", .arr [.num 9])] :=
  rfl

/-- C9 (amended): the padding holds when the default's trailing elements
are maps: for a default list of length 3 whose positions 1 and 2 hold
maps and a changed list of length 1, the result has length 3 with
positions 1–2 copied verbatim from the default (position 0 is the merged
head); default elements that are not maps are skipped entirely. -/
theorem C9_amended :
    ∀ (key : String) (directAssign : Bool) (d0 : Value)
      (fs1 fs2 : List (String × Value)) (c : Value),
      ∃ x, mergeChangedMap key (.arr [d0, .obj fs1, .obj fs2]) (.arr [c])
          directAssign
        = some (.arr [x, .obj fs1, .obj fs2]) := by
  intro key directAssign d0 fs1 fs2 c
  have hg : vbeq (.arr [d0, .obj fs1, .obj fs2]) (.arr [c]) = false := by
    simp [vbeq, vbeqList]
  rw [mergeChangedMap, hg]
  cases d0 <;> cases c <;> exact ⟨_, rfl⟩

/-! ### C6: controller-mode merging -/

theorem lookupStr_updateStr_self (l : List (String × String)) (k v : String) :
    lookupStr (updateStr l k v) k = some v := by
  induction l with
  | nil => simp [updateStr, lookupStr]
  | cons p rest ih =>
      obtain ⟨k', w⟩ := p
      by_cases h : k' = k <;> simp [updateStr, lookupStr, h, ih]

theorem lookupStr_updateStr_ne (l : List (String × String)) (k k' v : String)
    (h : k ≠ k') : lookupStr (updateStr l k v) k' = lookupStr l k' := by
  induction l with
  | nil => simp [updateStr, lookupStr, h]
  | cons p rest ih =>
      obtain ⟨k0, w⟩ := p
      by_cases h0 : k0 = k
      · subst h0; simp [updateStr, lookupStr, h]
      · by_cases h1 : k0 = k' <;>
          simp [updateStr, lookupStr, h0, h1, Ne.symm h, ih]

theorem lookupStr_append_one (l : List (String × String)) (k0 v0 k : String) :
    lookupStr (l ++ [(k0, v0)]) k =
      match lookupStr l k with
      | some w => some w
      | none => if k0 = k then some v0 else none := by
  induction l with
  | nil => simp [lookupStr]
  | cons p rest ih =>
      obtain ⟨k', w⟩ := p
      by_cases h : k' = k <;> simp [lookupStr, h, ih]

/-- The profile-controller fold never touches operands absent from the
incoming map. -/
theorem mergeProfileController_notin (incoming summary :
    List (String × String)) (op : String)
    (h : lookupStr incoming op = none) :
    lookupStr (mergeProfileController summary incoming) op =
      lookupStr summary op := by
  induction incoming generalizing summary with
  | nil => rfl
  | cons p rest ih =>
      obtain ⟨op0, pc0⟩ := p
      have hne : op0 ≠ op := by
        intro hcontr
        rw [lookupStr, if_pos hcontr] at h
        exact Option.noConfusion h
      have hrest : lookupStr rest op = none := by
        rw [lookupStr, if_neg hne] at h
        exact h
      rw [mergeProfileController]
      cases hs : lookupStr summary op0 with
      | some s =>
          by_cases hcond : pc0 ∈ nonDefaultProfileController ∧
              s ∉ nonDefaultProfileController
          · simp only [hs, if_pos hcond]
            rw [ih _ hrest, lookupStr_updateStr_ne summary op0 op pc0 hne]
          · simp only [hs, if_neg hcond]
            rw [ih _ hrest]
      | none =>
          simp only [hs]
          rw [ih _ hrest, lookupStr_append_one]
          cases hl : lookupStr summary op with
          | some w => rfl
          | none => simp [hne]

theorem nodupKeysS_cons (k v : String) (rest : List (String × String)) :
    nodupKeysS ((k, v) :: rest) = true ↔
      lookupStr rest k = none ∧ nodupKeysS rest = true := by
  simp only [nodupKeysS, Bool.and_eq_true, Bool.not_eq_true']
  constructor
  · rintro ⟨h1, h2⟩
    refine ⟨?_, h2⟩
    cases hl : lookupStr rest k with
    | none => rfl
    | some w => rw [hl] at h1; simp at h1
  · rintro ⟨h1, h2⟩
    exact ⟨by rw [h1]; rfl, h2⟩

/-- C6: `MergeControllerModes` semantics, exactly as the claim states it:
for an operand of the incoming map, an existing summary entry is replaced
only when the incoming mode is independent (non-default) and the existing
entry is not; when the summary has no entry, the incoming mode is adopted
regardless. -/
theorem C6_mergeControllerModes :
    ∀ (summary incoming : List (String × String)) (op pc : String),
      nodupKeysS incoming = true →
      lookupStr incoming op = some pc →
      lookupStr (mergeProfileController summary incoming) op =
        some (match lookupStr summary op with
              | some s =>
                  if pc ∈ nonDefaultProfileController ∧
                     s ∉ nonDefaultProfileController then pc else s
              | none => pc) := by
  intro summary incoming
  induction incoming generalizing summary with
  | nil => intro op pc _ h; exact absurd h (by simp [lookupStr])
  | cons p rest ih =>
      obtain ⟨op0, pc0⟩ := p
      intro op pc hnd h
      rw [nodupKeysS_cons] at hnd
      by_cases hop : op0 = op
      · subst hop
        rw [lookupStr, if_pos rfl] at h
        have hpc : pc0 = pc := by injection h
        subst hpc
        rw [mergeProfileController]
        cases hs : lookupStr summary op0 with
        | some s =>
            by_cases hcond : pc0 ∈ nonDefaultProfileController ∧
                s ∉ nonDefaultProfileController
            · simp only [hs, if_pos hcond]
              rw [mergeProfileController_notin rest _ op0 hnd.1,
                lookupStr_updateStr_self]
            · simp only [hs, if_neg hcond]
              rw [mergeProfileController_notin rest _ op0 hnd.1, hs]
        | none =>
            simp only [hs]
            rw [mergeProfileController_notin rest _ op0 hnd.1,
              lookupStr_append_one, hs]
            simp
      · rw [lookupStr, if_neg hop] at h
        rw [mergeProfileController]
        have hsum : ∀ summary',
            lookupStr summary' op = lookupStr summary op →
            lookupStr (mergeProfileController summary' rest) op =
              some (match lookupStr summary op with
                    | some s =>
                        if pc ∈ nonDefaultProfileController ∧
                           s ∉ nonDefaultProfileController then pc else s
                    | none => pc) := by
          intro summary' heq
          rw [ih summary' op pc hnd.2 h, heq]
        cases hs : lookupStr summary op0 with
        | some s =>
            by_cases hcond : pc0 ∈ nonDefaultProfileController ∧
                s ∉ nonDefaultProfileController
            · simp only [hs, if_pos hcond]
              exact hsum _ (lookupStr_updateStr_ne summary op0 op pc0 hop)
            · simp only [hs, if_neg hcond]
              exact hsum _ rfl
        | none =>
            simp only [hs]
            refine hsum _ ?_
            rw [lookupStr_append_one]
            cases hl : lookupStr summary op with
            | some w => rfl
            | none => simp [hop]

/-- C6: witness at a concrete input — an independent incoming mode
displaces a default summary entry. -/
theorem C6_witness :
    (nodupKeysS [("opA", "vpa")] = true ∧
     lookupStr [("opA", "vpa")] "opA" = some "vpa") ∧
    lookupStr (mergeProfileController [("opA", "csDefault")]
      [("opA", "vpa")]) "opA" = some "vpa" :=
  ⟨⟨rfl, rfl⟩,
    C6_mergeControllerModes [("opA", "csDefault")] [("opA", "vpa")]
      "opA" "vpa" rfl rfl⟩

/-! ### C7: resetting managed fields -/

/-- C7: counterexample.  A field named `cpu` that is governed by the rules
(rules non-nil at its path) but whose value is a map is not deleted — the
reset recurses into it instead; the claim says every governed field named
`replicas`/`cpu`/`memory` is deleted. -/
theorem C7_counterexample :
    resetResourceInTemplate [("cpu", .obj [("x", .num 1)])] "cr1"
      (.obj [("spec",
        .obj [("cr1", .obj [("cpu", .obj [("x", .obj [])])])])])
    = [("cpu", .obj [("x", .num 1)])] ∧
    containsKey
      (resetResourceInTemplate [("cpu", .obj [("x", .num 1)])] "cr1"
        (.obj [("spec",
          .obj [("cr1", .obj [("cpu", .obj [("x", .obj [])])])])]))
      "cpu" = true :=
  ⟨rfl, rfl⟩

theorem resetFields_cons (k : String) (v : Value)
    (rest rfs : List (String × Value)) :
    resetFields ((k, v) :: rest) rfs =
      match resetChangedMap k v (alookup rfs k) with
      | none => resetFields rest rfs
      | some v' => (k, v') :: resetFields rest rfs := by
  rw [resetFields]

theorem fget_resetFields_notin (cfs rfs : List (String × Value))
    (k : String) (h : containsKey cfs k = false) :
    fget (resetFields cfs rfs) k = none := by
  induction cfs with
  | nil => rfl
  | cons p rest ih =>
      obtain ⟨k0, v⟩ := p
      simp only [containsKey, Bool.or_eq_false_iff, decide_eq_false_iff_not]
        at h
      rw [resetFields_cons]
      cases resetChangedMap k0 v (alookup rfs k0) with
      | none => exact ih h.2
      | some v' => simp [fget, h.1, ih h.2]

/-- C7 (amended): `ResetManagedFields` deletes exactly those fields that
are governed by the rules (rules non-nil at the path), named `replicas`,
`cpu` or `memory`, and whose value is not itself a map; a governed
map-valued field is recursed into instead (only its own governed reset
fields are deleted), and every other field keeps its value. -/
theorem C7_amended :
    (∀ (k : String) (v rules : Value),
       resetChangedMap k v rules = none ↔
         (rules ≠ .null ∧ (∀ fs, v ≠ .obj fs) ∧ k ∈ requiredResetKeys))
    ∧ (∀ (cfs rfs : List (String × Value)) (k : String),
        nodupKeys cfs = true →
        fget (resetFields cfs rfs) k =
          (fget cfs k).bind (fun v => resetChangedMap k v (alookup rfs k)))
    ∧ (∀ (k : String) (v rules w : Value),
        resetChangedMap k v rules = some w →
        w = v ∨ ∃ mfs rfs', v = .obj mfs ∧ rules = .obj rfs' ∧
          w = .obj (resetFields mfs rfs')) := by
  refine ⟨?_, ?_, ?_⟩
  · intro k v rules
    cases rules <;> cases v <;>
      simp [resetChangedMap, requiredResetKeys] <;> tauto
  · intro cfs rfs k hnd
    induction cfs with
    | nil => rfl
    | cons p rest ih =>
        obtain ⟨k0, v⟩ := p
        simp only [nodupKeys, Bool.and_eq_true, Bool.not_eq_true'] at hnd
        by_cases h : k0 = k
        · subst h
          rw [resetFields_cons]
          cases hf : resetChangedMap k0 v (alookup rfs k0) with
          | none => simp [fget, fget_resetFields_notin rest rfs k0 hnd.1, hf]
          | some v' => simp [fget, hf]
        · rw [resetFields_cons]
          cases hf : resetChangedMap k0 v (alookup rfs k0) with
          | none => simp [fget, h, ih hnd.2]
          | some v' => simp [fget, h, ih hnd.2]
  · intro k v rules w h
    cases rules <;> cases v <;>
      simp_all [resetChangedMap, requiredResetKeys]

/-- C7: witness — a governed scalar `cpu` is deleted, through both parts of
the amended statement. -/
theorem C7_witness :
    (resetChangedMap "cpu" (Value.num 2) (Value.obj []) = none ↔
      (Value.obj [] ≠ Value.null ∧
       (∀ fs, Value.num 2 ≠ Value.obj fs) ∧
       "cpu" ∈ requiredResetKeys)) ∧
    (nodupKeys [("cpu", Value.num 2), ("other", Value.num 7)] = true) ∧
    fget (resetFields [("cpu", Value.num 2), ("other", Value.num 7)]
      [("cpu", Value.obj []), ("other", Value.obj [])]) "cpu"
      = (fget [("cpu", Value.num 2), ("other", Value.num 7)] "cpu").bind
          (fun v => resetChangedMap "cpu" v
            (alookup [("cpu", Value.obj []), ("other", Value.obj [])] "cpu")) :=
  ⟨C7_amended.1 "cpu" (Value.num 2) (Value.obj []), rfl,
    C7_amended.2.1 [("cpu", Value.num 2), ("other", Value.num 7)]
      [("cpu", Value.obj []), ("other", Value.obj [])] "cpu" rfl⟩

/-! ### C8: resource overrides with incomplete identity are skipped -/

/-- A resource whose apiVersion, kind or name reads as empty is skipped
with a warning, the entry returned unchanged. -/
theorem processOpResource_skip (serviceControllerNonDefault : Bool)
    (newResources : Value) (opconNs : String) (r : Value)
    (h : (strField r "apiVersion").getD "" = "" ∨
         (strField r "kind").getD "" = "" ∨
         (strField r "name").getD "" = "") :
    processOpResource serviceControllerNonDefault newResources opconNs r
      = (r, true) := by
  rw [processOpResource]
  simp only [if_pos h]

theorem updateOpResources_length (serviceControllerNonDefault : Bool)
    (newResources : Value) (opconNs : String) :
    ∀ (rs : List Value) (start : Nat),
      (updateOpResources serviceControllerNonDefault newResources opconNs rs
        start).1.length = rs.length := by
  intro rs
  induction rs with
  | nil => intro start; rfl
  | cons r rest ih =>
      intro start
      rw [updateOpResources]
      simp [ih (start + 1)]

theorem updateOpResources_get (serviceControllerNonDefault : Bool)
    (newResources : Value) (opconNs : String) :
    ∀ (rs : List Value) (start i : Nat) (r : Value),
      rs.get? i = some r →
      (updateOpResources serviceControllerNonDefault newResources opconNs rs
        start).1.get? i =
        some (processOpResource serviceControllerNonDefault newResources
          opconNs r).1 := by
  intro rs
  induction rs with
  | nil => intro start i r h; simp at h
  | cons r0 rest ih =>
      intro start i r h
      rw [updateOpResources]
      cases i with
      | zero => simp at h; subst h; rfl
      | succ j =>
          simp only [List.get?] at h
          simpa using ih (start + 1) j r h

theorem updateOpResources_warn (serviceControllerNonDefault : Bool)
    (newResources : Value) (opconNs : String) :
    ∀ (rs : List Value) (start i : Nat) (r : Value),
      rs.get? i = some r →
      (processOpResource serviceControllerNonDefault newResources opconNs
        r).2 = true →
      (start + i) ∈ (updateOpResources serviceControllerNonDefault
        newResources opconNs rs start).2 := by
  intro rs
  induction rs with
  | nil => intro start i r h; simp at h
  | cons r0 rest ih =>
      intro start i r h hw
      rw [updateOpResources]
      cases i with
      | zero =>
          simp at h; subst h
          simp [hw]
      | succ j =>
          simp only [List.get?] at h
          have := ih (start + 1) j r h hw
          have harith : start + (j + 1) = (start + 1) + j := by omega
          rw [harith]
          cases hw0 : (processOpResource serviceControllerNonDefault
              newResources opconNs r0).2 <;> simp_all

/-- C8: a resource override whose apiVersion, kind or name is empty is
skipped non-fatally — the entry of the canonical list is unchanged, its
index is recorded as a warning, and every other entry is still processed
(the output has the same length). -/
theorem C8_incompleteIdentitySkipped :
    ∀ (serviceControllerNonDefault : Bool) (newResources : Value)
      (opconNs : String) (rs : List Value) (i : Nat) (r : Value),
      rs.get? i = some r →
      ((strField r "apiVersion").getD "" = "" ∨
       (strField r "kind").getD "" = "" ∨
       (strField r "name").getD "" = "") →
      (updateOpResources serviceControllerNonDefault newResources opconNs rs
        0).1.get? i = some r ∧
      i ∈ (updateOpResources serviceControllerNonDefault newResources opconNs
        rs 0).2 ∧
      (updateOpResources serviceControllerNonDefault newResources opconNs rs
        0).1.length = rs.length := by
  intro serviceControllerNonDefault newResources opconNs rs i r hi hskip
  have hp := processOpResource_skip serviceControllerNonDefault newResources
    opconNs r hskip
  refine ⟨?_, ?_, updateOpResources_length _ _ _ rs 0⟩
  · rw [updateOpResources_get _ _ _ rs 0 i r hi, hp]
  · have := updateOpResources_warn _ _ _ rs 0 i r hi (by rw [hp])
    simpa using this

/-- C8: witness at a concrete input — an override with an empty kind. -/
theorem C8_witness :
    ([Value.obj [("apiVersion", Value.str "v1"), ("name", Value.str "x")],
      Value.obj []].get? 0
      = some (Value.obj [("apiVersion", Value.str "v1"),
          ("name", Value.str "x")]) ∧
     (strField (Value.obj [("apiVersion", Value.str "v1"),
       ("name", Value.str "x")]) "kind").getD "" = "") ∧
    (updateOpResources false (Value.arr []) "ns"
      [Value.obj [("apiVersion", Value.str "v1"), ("name", Value.str "x")],
       Value.obj []] 0).1.get? 0
      = some (Value.obj [("apiVersion", Value.str "v1"),
          ("name", Value.str "x")]) ∧
    0 ∈ (updateOpResources false (Value.arr []) "ns"
      [Value.obj [("apiVersion", Value.str "v1"), ("name", Value.str "x")],
       Value.obj []] 0).2 ∧
    (updateOpResources false (Value.arr []) "ns"
      [Value.obj [("apiVersion", Value.str "v1"), ("name", Value.str "x")],
       Value.obj []] 0).1.length
      = [Value.obj [("apiVersion", Value.str "v1"), ("name", Value.str "x")],
         Value.obj []].length :=
  ⟨⟨rfl, rfl⟩,
    C8_incompleteIdentitySkipped false (Value.arr []) "ns"
      [Value.obj [("apiVersion", Value.str "v1"), ("name", Value.str "x")],
       Value.obj []] 0
      (Value.obj [("apiVersion", Value.str "v1"), ("name", Value.str "x")])
      rfl (Or.inr (Or.inl rfl))⟩

/-! ### C10: autoscaler-owned cpu limit reset -/

theorem alookup_slotUpdate_self (l : List (String × Value)) (k : String)
    (v : Value) : alookup (slotUpdate l k v) k = v := by
  rw [alookup_eq_fget, fget_slotUpdate_self]
  rfl

/-- C10: under an independent (non-default) controller mode, a matched
resource override whose `data`, `data.spec` and `data.spec.resources` are
present (with `data.spec.resources.limits` a map) gets its
`data.spec.resources.limits.cpu` overwritten with the empty placeholder
before the merge; when any of `data`, `data.spec` or `data.spec.resources`
is absent — or the mode is the default one — no reset is performed and the
override is merged as it came. -/
theorem C10_autoscalerCpuReset :
    (∀ (newResource : Value) (serviceControllerNonDefault : Bool),
       (mget newResource "data" = .null ∨
        mget (mget newResource "data") "spec" = .null ∨
        mget (mget (mget newResource "data") "spec") "resources" = .null) →
       applyControllerReset serviceControllerNonDefault newResource
         = newResource)
    ∧ (∀ newResource : Value,
       applyControllerReset false newResource = newResource)
    ∧ (∀ (fields dataFs specFs resFs limFs : List (String × Value)),
       alookup fields "data" = .obj dataFs →
       alookup dataFs "spec" = .obj specFs →
       alookup specFs "resources" = .obj resFs →
       alookup resFs "limits" = .obj limFs →
       mget (mget (mget (mget (mget
         (applyControllerReset true (.obj fields)) "data") "spec")
         "resources") "limits") "cpu" = .empty) := by
  refine ⟨?_, ?_, ?_⟩
  · intro newResource serviceControllerNonDefault h
    have hex : isOpResourceExists newResource = false := by
      rcases h with h | h | h <;>
        cases hd : mget newResource "data" <;>
        cases hs : mget (mget newResource "data") "spec" <;>
        simp_all [isOpResourceExists]
    simp [applyControllerReset, hex]
  · intro newResource
    simp [applyControllerReset]
  · intro fields dataFs specFs resFs limFs hdata hspec hres hlim
    have hex : isOpResourceExists (.obj fields) = true := by
      simp [isOpResourceExists, mget, hdata, hspec, hres]
    rw [applyControllerReset]
    rw [if_pos ⟨rfl, hex⟩]
    rw [resetLimitsCpu]
    simp only [mget, hdata, hspec, hres, hlim]
    simp [setIn, mget, alookup_slotUpdate_self]

/-- Sample limits map for the C10 witness. -/
def sampleLimFs : List (String × Value) := [("cpu", .str "2")]

/-- Sample resources map for the C10 witness. -/
def sampleResFs : List (String × Value) := [("limits", .obj sampleLimFs)]

/-- Sample data-spec map for the C10 witness. -/
def sampleSpecFs : List (String × Value) := [("resources", .obj sampleResFs)]

/-- Sample data map for the C10 witness. -/
def sampleDataFs : List (String × Value) := [("spec", .obj sampleSpecFs)]

/-- Sample well-shaped resource override for the C10 witness. -/
def sampleResourceFs : List (String × Value) := [("data", .obj sampleDataFs)]

/-- Sample resource override with `data.spec.resources` absent. -/
def sampleNoRes : Value := .obj [("data", .obj [("spec", .obj [])])]

/-- C10: witness — the reset happens on a well-shaped resource and is a
no-op when `data.spec.resources` is absent. -/
theorem C10_witness :
    (mget (mget (mget sampleNoRes "data") "spec") "resources"
       = Value.null ∧
     alookup sampleResourceFs "data" = Value.obj sampleDataFs ∧
     alookup sampleDataFs "spec" = Value.obj sampleSpecFs ∧
     alookup sampleSpecFs "resources" = Value.obj sampleResFs ∧
     alookup sampleResFs "limits" = Value.obj sampleLimFs) ∧
    applyControllerReset true sampleNoRes = sampleNoRes ∧
    mget (mget (mget (mget (mget
      (applyControllerReset true (.obj sampleResourceFs)) "data") "spec")
      "resources") "limits") "cpu" = Value.empty :=
  ⟨⟨rfl, rfl, rfl, rfl, rfl⟩,
    C10_autoscalerCpuReset.1 sampleNoRes true (Or.inr (Or.inr rfl)),
    C10_autoscalerCpuReset.2.2 sampleResourceFs sampleDataFs sampleSpecFs
      sampleResFs sampleLimFs rfl rfl rfl rfl⟩

/-! ### C5: the `unchanged` comparison -/

/-- Merged service used by the C5 counterexample: spec equal to the
snapshot's, resources different. -/
def svcMerged : Value :=
  .obj [("name", .str "op1"),
        ("spec", .obj [("crA", .obj [("replicas", .num 2)])]),
        ("resources", .arr [.num 1])]

/-- Snapshot service used by the C5 counterexample. -/
def svcSnapshot : Value :=
  .obj [("name", .str "op1"),
        ("spec", .obj [("crA", .obj [("replicas", .num 2)])]),
        ("resources", .arr [.num 9])]

/-- C5: counterexample.  The merged and snapshot services differ (their
`resources` differ), yet the computed `unchanged` flag is true — the
comparison loop never looks at `resources`, contradicting the claim's
"equality over the whole ConfigTree including its resources". -/
theorem C5_counterexample :
    computeIsEqual [svcMerged] [svcSnapshot] = true ∧
    vbeq (.arr [svcMerged]) (.arr [svcSnapshot]) = false :=
  ⟨rfl, rfl⟩

theorem mget_setIn_ne (v : Value) (key k : String) (newV : Value)
    (h : key ≠ k) : mget (setIn v key newV) k = mget v k := by
  cases v <;> simp [setIn, mget]
  exact alookup_slotUpdate_ne _ key k newV h

theorem strField_setIn_resources_name (v r : Value) :
    strField (setIn v "resources" r) "name" = strField v "name" := by
  rw [strField, strField, mget_setIn_ne v "resources" "name" r (by decide)]

theorem nameOf_setIn_resources (v r : Value) :
    nameOf (setIn v "resources" r) = nameOf v := by
  rw [nameOf, nameOf, mget_setIn_ne v "resources" "name" r (by decide)]

theorem mget_setIn_resources_spec (v r : Value) :
    mget (setIn v "resources" r) "spec" = mget v "spec" :=
  mget_setIn_ne v "resources" "spec" r (by decide)

theorem getItemByName_map_setIn_resources (es : List Value) (r : Value)
    (n : String) :
    getItemByName (es.map (fun s => setIn s "resources" r)) n
      = setIn (getItemByName es n) "resources" r := by
  induction es with
  | nil => simp [getItemByName, setIn]
  | cons e rest ih =>
      simp only [List.map, getItemByName, strField_setIn_resources_name]
      by_cases h : strField e "name" = some n
      · simp [h]
      · simp [h, ih]

theorem specsEqual_setIn_resources (es : List Value) (s : Value)
    (r1 r2 : Value) :
    specsEqualForService (es.map (fun e => setIn e "resources" r2))
      (setIn s "resources" r1)
      = specsEqualForService es s := by
  rw [specsEqualForService, specsEqualForService,
    mget_setIn_resources_spec s r1]
  cases hm : mget s "spec" with
  | obj crs =>
      simp only [nameOf_setIn_resources,
        getItemByName_map_setIn_resources, mget_setIn_resources_spec]
  | null => rfl
  | boolean b => rfl
  | str st => rfl
  | num n => rfl
  | empty => rfl
  | arr es' => rfl

/-- C5 (amended): the `unchanged` flag produced by the reconcile compares,
for each service with a map-valued spec, every CR-kind's spec recursively
against the snapshot's; the `resources` sequences take no part in the
comparison, so replacing both sides' `resources` arbitrarily never changes
the flag. -/
theorem C5_amended :
    ∀ (opconServices existingServices : List Value) (r1 r2 : Value),
      computeIsEqual (opconServices.map (fun s => setIn s "resources" r1))
        (existingServices.map (fun s => setIn s "resources" r2))
      = computeIsEqual opconServices existingServices := by
  intro opconServices existingServices r1 r2
  induction opconServices with
  | nil => rfl
  | cons s rest ih =>
      simp only [computeIsEqual, List.map, List.all_cons] at *
      rw [specsEqual_setIn_resources, ih]

/-! ### C2: idempotence of the rule-filtered merge

The counterexample below shows the claim fails when a default list holds a
non-map element in front of map elements.  The amended statement proves
idempotence (under `reflect.DeepEqual`, i.e. `vbeq`) for well-formed trees
whose default-side lists contain only maps.  The development proceeds in
layers: facts about `vbeq` as an equivalence on well-formed trees, the
filter as a projection, preservation of well-formedness by the merge, and
finally the slot-level idempotence by strong induction on the default
value. -/

/-- C2: counterexample default tree — a list with a scalar between two
maps. -/
def c2Default : List (String × Value) :=
  [("k", .arr [.obj [("a", .num 1)], .num 0, .obj [("b", .num 2)]])]

/-- C2: counterexample changed tree. -/
def c2Changed : List (String × Value) := [("k", .arr [.obj []])]

/-- C2: counterexample.  Applying the merge a second time to its own output
appends the trailing default map element again (the appended element made
the list longer, so the length test `len(changed) <= i` fires once more),
so the second output differs from the first even under `reflect.DeepEqual`
— the merge is not idempotent. -/
theorem C2_counterexample :
    vbeq
      (.obj (mergeCRsIntoOperandConfig c2Default
        (mergeCRsIntoOperandConfig c2Default c2Changed [] true false)
        [] true false))
      (.obj (mergeCRsIntoOperandConfig c2Default c2Changed [] true false))
      = false ∧
    mergeCRsIntoOperandConfig c2Default c2Changed [] true false
      = [("k", .arr [.obj [("a", .num 1)], .obj [("b", .num 2)]])] ∧
    mergeCRsIntoOperandConfig c2Default
        (mergeCRsIntoOperandConfig c2Default c2Changed [] true false)
        [] true false
      = [("k", .arr [.obj [("a", .num 1)], .obj [("b", .num 2)],
          .obj [("b", .num 2)]])] :=
  ⟨rfl, rfl, rfl⟩

/-- Presence-exact equivalence of optional slot values: both absent, or
both present with `vbeq`-equal values. -/
def oEq : Option Value → Option Value → Bool
  | none, none => true
  | some a, some b => vbeq a b
  | _, _ => false

mutual

/-- Default trees covered by the amended idempotence statement: every list
anywhere in the tree contains only maps. -/
def goodv : Value → Bool
  | .obj fields => goodFields fields
  | .arr elems => goodArr elems
  | _ => true

/-- All field values good. -/
def goodFields : List (String × Value) → Bool
  | [] => true
  | (_, v) :: rest => goodv v && goodFields rest

/-- All elements are maps with good fields. -/
def goodArr : List Value → Bool
  | [] => true
  | .obj fields :: rest => goodFields fields && goodArr rest
  | _ => false

end

/-! #### Size and membership bookkeeping -/

theorem sizeOf_alookup_lt (l : List (String × Value)) (k : String)
    (h : containsKey l k = true) : sizeOf (alookup l k) < sizeOf l := by
  induction l with
  | nil => simp [containsKey] at h
  | cons p rest ih =>
      obtain ⟨k0, v⟩ := p
      by_cases h0 : k0 = k
      · simp only [alookup, if_pos h0]
        simp
        omega
      · simp only [containsKey, decide_eq_true_eq, Bool.or_eq_true] at h
        rcases h with h | h
        · exact absurd h h0
        · simp only [alookup, if_neg h0]
          have := ih h
          simp
          omega

theorem wfFields_nodup (fields : List (String × Value))
    (h : wfFields fields = true) : nodupKeys fields = true := by
  induction fields with
  | nil => rfl
  | cons p rest ih =>
      obtain ⟨k, v⟩ := p
      simp only [wfFields, Bool.and_eq_true] at h
      simp only [nodupKeys, Bool.and_eq_true]
      exact ⟨h.1.1, ih h.2⟩

theorem wfFields_alookup (fields : List (String × Value)) (k : String)
    (h : wfFields fields = true) : wfv (alookup fields k) = true := by
  induction fields with
  | nil => simp [alookup, wfv]
  | cons p rest ih =>
      obtain ⟨k0, v⟩ := p
      simp only [wfFields, Bool.and_eq_true] at h
      by_cases h0 : k0 = k
      · simpa [alookup, h0] using h.1.2
      · simp only [alookup, if_neg h0]
        exact ih h.2

theorem wfFields_fget (fields : List (String × Value)) (k : String)
    (v : Value) (h : wfFields fields = true) (hf : fget fields k = some v) :
    wfv v = true := by
  have := wfFields_alookup fields k h
  rw [alookup_eq_fget, hf] at this
  exact this

theorem goodFields_alookup (fields : List (String × Value)) (k : String)
    (h : goodFields fields = true) : goodv (alookup fields k) = true := by
  induction fields with
  | nil => simp [alookup, goodv]
  | cons p rest ih =>
      obtain ⟨k0, v⟩ := p
      simp only [goodFields, Bool.and_eq_true] at h
      by_cases h0 : k0 = k
      · simpa [alookup, h0] using h.1
      · simp only [alookup, if_neg h0]
        exact ih h.2

theorem wfv_obj (fields : List (String × Value)) :
    wfv (.obj fields) = wfFields fields := rfl

theorem containsKey_exists (l : List (String × Value)) (k : String)
    (h : containsKey l k = true) : ∃ v, fget l k = some v := by
  induction l with
  | nil => simp [containsKey] at h
  | cons p rest ih =>
      obtain ⟨k0, v⟩ := p
      by_cases h0 : k0 = k
      · exact ⟨v, by simp [fget, h0]⟩
      · simp only [containsKey, decide_eq_true_eq, Bool.or_eq_true] at h
        rcases h with h | h
        · exact absurd h h0
        · obtain ⟨w, hw⟩ := ih h
          exact ⟨w, by simp [fget, h0, hw]⟩

theorem containsKey_of_mem (l : List (String × Value)) (p : String × Value)
    (h : p ∈ l) : containsKey l p.1 = true := by
  induction l with
  | nil => simp at h
  | cons q rest ih =>
      obtain ⟨k0, v0⟩ := q
      rcases List.mem_cons.mp h with h | h
      · subst h; simp [containsKey]
      · simp [containsKey, ih h]

theorem containsKey_mem (l : List (String × Value)) (k : String)
    (h : containsKey l k = true) : ∃ v, (k, v) ∈ l := by
  induction l with
  | nil => simp [containsKey] at h
  | cons q rest ih =>
      obtain ⟨k0, v0⟩ := q
      by_cases h0 : k0 = k
      · subst h0; exact ⟨v0, List.mem_cons_self _ _⟩
      · simp only [containsKey, decide_eq_true_eq, Bool.or_eq_true] at h
        rcases h with h | h
        · exact absurd h h0
        · obtain ⟨v, hv⟩ := ih h
          exact ⟨v, List.mem_cons_of_mem _ hv⟩

theorem alookup_nodup_mem (l : List (String × Value))
    (hnd : nodupKeys l = true) : ∀ p ∈ l, alookup l p.1 = p.2 := by
  induction l with
  | nil => simp
  | cons q rest ih =>
      obtain ⟨k0, v0⟩ := q
      simp only [nodupKeys, Bool.and_eq_true, Bool.not_eq_true'] at hnd
      intro p hp
      rcases List.mem_cons.mp hp with h | h
      · subst h; simp [alookup]
      · have hne : k0 ≠ p.1 := by
          intro hcontr
          have := containsKey_of_mem rest p h
          rw [← hcontr] at this
          rw [this] at hnd
          exact Bool.noConfusion hnd.1
        simp only [alookup, if_neg hne]
        exact ih hnd.2 p h

theorem wfFields_mem (l : List (String × Value)) (h : wfFields l = true) :
    ∀ p ∈ l, wfv p.2 = true := by
  induction l with
  | nil => simp
  | cons q rest ih =>
      obtain ⟨k0, v0⟩ := q
      simp only [wfFields, Bool.and_eq_true] at h
      intro p hp
      rcases List.mem_cons.mp hp with hp | hp
      · subst hp; exact h.1.2
      · exact ih h.2 p hp

theorem wfList_mem (l : List Value) (h : wfList l = true) :
    ∀ x ∈ l, wfv x = true := by
  induction l with
  | nil => simp
  | cons x0 rest ih =>
      simp only [wfList, Bool.and_eq_true] at h
      intro x hx
      rcases List.mem_cons.mp hx with hx | hx
      · subst hx; exact h.1
      · exact ih h.2 x hx

theorem sizeOf_snd_lt (l : List (String × Value)) (p : String × Value)
    (h : p ∈ l) : sizeOf p.2 < sizeOf l := by
  have h1 := List.sizeOf_lt_of_mem h
  obtain ⟨k, v⟩ := p
  simp at h1 ⊢
  omega

theorem sizeOf_elem_lt (l : List Value) (x : Value) (h : x ∈ l) :
    sizeOf x < sizeOf l :=
  List.sizeOf_lt_of_mem h

/-! #### `vbeq` is an equivalence on well-formed trees -/

theorem vbeqFields_of_pointwise (a b : List (String × Value))
    (h : ∀ p ∈ a, vbeq p.2 (alookup b p.1) = true) :
    vbeqFields a b = true := by
  induction a with
  | nil => rfl
  | cons p rest ih =>
      obtain ⟨k, v⟩ := p
      rw [vbeqFields, Bool.and_eq_true]
      exact ⟨h (k, v) (List.mem_cons_self _ _),
        ih fun q hq => h q (List.mem_cons_of_mem _ hq)⟩

theorem vbeqFields_mem (a b : List (String × Value))
    (h : vbeqFields a b = true) : ∀ p ∈ a, vbeq p.2 (alookup b p.1) = true := by
  induction a with
  | nil => simp
  | cons p rest ih =>
      obtain ⟨k, v⟩ := p
      rw [vbeqFields, Bool.and_eq_true] at h
      intro q hq
      rcases List.mem_cons.mp hq with hq | hq
      · subst hq; exact h.1
      · exact ih h.2 q hq

/-- Introduction rule for `vbeq` on maps: equal key sets and pointwise
`vbeq` values (duplicate-free keys). -/
theorem vbeq_obj_intro (a b : List (String × Value))
    (ha : nodupKeys a = true)
    (hkeys : ∀ k, containsKey a k = containsKey b k)
    (hvals : ∀ k, containsKey a k = true →
      vbeq (alookup a k) (alookup b k) = true) :
    vbeq (.obj a) (.obj b) = true := by
  rw [vbeq, Bool.and_eq_true, Bool.and_eq_true]
  refine ⟨⟨?_, ?_⟩, ?_⟩
  · refine vbeqFields_of_pointwise a b fun p hp => ?_
    rw [← alookup_nodup_mem a ha p hp]
    exact hvals p.1 (containsKey_of_mem a p hp)
  · rw [List.all_eq_true]
    intro p hp
    rw [← hkeys p.1]
    exact containsKey_of_mem a p hp
  · rw [List.all_eq_true]
    intro p hp
    rw [hkeys p.1]
    exact containsKey_of_mem b p hp

theorem vbeq_obj_keys (a b : List (String × Value))
    (h : vbeq (.obj a) (.obj b) = true) (k : String) :
    containsKey a k = containsKey b k := by
  rw [vbeq, Bool.and_eq_true, Bool.and_eq_true] at h
  obtain ⟨⟨_, hab⟩, hba⟩ := h
  rw [List.all_eq_true] at hab hba
  cases hca : containsKey a k with
  | true =>
      obtain ⟨v, hv⟩ := containsKey_mem a k hca
      exact (hab (k, v) hv).symm
  | false =>
      cases hcb : containsKey b k with
      | true =>
          obtain ⟨v, hv⟩ := containsKey_mem b k hcb
          have h2 := hba (k, v) hv
          rw [hca] at h2
          exact Bool.noConfusion h2
      | false => rfl

theorem vbeqFields_lookup :
    ∀ (a b : List (String × Value)) (k : String),
      vbeqFields a b = true → containsKey a k = true →
      vbeq (alookup a k) (alookup b k) = true := by
  intro a
  induction a with
  | nil => intro b k _ hk; simp [containsKey] at hk
  | cons p rest ih =>
      obtain ⟨k0, v0⟩ := p
      intro b k hf hk
      rw [vbeqFields, Bool.and_eq_true] at hf
      by_cases h0 : k0 = k
      · subst h0; simpa [alookup] using hf.1
      · simp only [containsKey, decide_eq_true_eq, Bool.or_eq_true] at hk
        rcases hk with hk | hk
        · exact absurd hk h0
        · simp only [alookup, if_neg h0]
          exact ih b k hf.2 hk

theorem vbeq_obj_vals (a b : List (String × Value))
    (h : vbeq (.obj a) (.obj b) = true) (k : String)
    (hk : containsKey a k = true) :
    vbeq (alookup a k) (alookup b k) = true := by
  rw [vbeq, Bool.and_eq_true, Bool.and_eq_true] at h
  exact vbeqFields_lookup a b k h.1.1 hk

theorem vbeqList_length (xs ys : List Value) (h : vbeqList xs ys = true) :
    xs.length = ys.length := by
  induction xs generalizing ys with
  | nil => cases ys with
    | nil => rfl
    | cons y ys => exact Bool.noConfusion h
  | cons x xs ih =>
      cases ys with
      | nil => exact Bool.noConfusion h
      | cons y ys =>
          rw [vbeqList, Bool.and_eq_true] at h
          simp [ih ys h.2]

theorem vbeqList_get (xs ys : List Value) (h : vbeqList xs ys = true) :
    ∀ (i : Nat) (x y : Value), xs.get? i = some x → ys.get? i = some y →
      vbeq x y = true := by
  induction xs generalizing ys with
  | nil => intro i x y hx; simp at hx
  | cons x0 xs ih =>
      cases ys with
      | nil => exact Bool.noConfusion h
      | cons y0 ys =>
          rw [vbeqList, Bool.and_eq_true] at h
          intro i x y hx hy
          cases i with
          | zero =>
              simp at hx hy
              subst hx; subst hy
              exact h.1
          | succ j => exact ih ys h.2 j x y hx hy

theorem vbeqList_intro (xs ys : List Value)
    (hlen : xs.length = ys.length)
    (h : ∀ (i : Nat) (x y : Value), xs.get? i = some x →
      ys.get? i = some y → vbeq x y = true) :
    vbeqList xs ys = true := by
  induction xs generalizing ys with
  | nil =>
      cases ys with
      | nil => rfl
      | cons y ys => simp at hlen
  | cons x0 xs ih =>
      cases ys with
      | nil => simp at hlen
      | cons y0 ys =>
          rw [vbeqList, Bool.and_eq_true]
          refine ⟨h 0 x0 y0 rfl rfl, ?_⟩
          refine ih ys (by simpa using hlen) fun i x y hx hy => ?_
          exact h (i + 1) x y hx hy

/-- `vbeq` is reflexive on well-formed trees. -/
theorem vbeq_refl_rec :
    ∀ (n : Nat) (v : Value), sizeOf v ≤ n → wfv v = true →
      vbeq v v = true := by
  intro n
  induction n with
  | zero => intro v hv _; cases v <;> simp at hv
  | succ n ih =>
      intro v hv hwf
      cases v with
      | null => rfl
      | boolean b => simp [vbeq]
      | str s => simp [vbeq]
      | num m => simp [vbeq]
      | empty => rfl
      | obj fields =>
          have hsz : sizeOf fields ≤ n := by simp at hv; omega
          have hnd := wfFields_nodup fields hwf
          refine vbeq_obj_intro fields fields hnd (fun _ => rfl) ?_
          intro k hk
          refine ih (alookup fields k) ?_ (wfFields_alookup fields k hwf)
          have := sizeOf_alookup_lt fields k hk
          omega
      | arr elems =>
          have hsz : sizeOf elems ≤ n := by simp at hv; omega
          rw [vbeq]
          refine vbeqList_intro elems elems rfl fun i x y hx hy => ?_
          rw [hx] at hy
          injection hy with hy
          subst hy
          have hmem := List.get?_mem hx
          refine ih x ?_ (wfList_mem elems hwf x hmem)
          have := sizeOf_elem_lt elems x hmem
          omega

/-- `vbeq` is reflexive on well-formed trees (packaged form). -/
theorem vbeq_refl (v : Value) (hwf : wfv v = true) : vbeq v v = true :=
  vbeq_refl_rec (sizeOf v) v (Nat.le_refl _) hwf

/-- `vbeq` is symmetric on well-formed trees. -/
theorem vbeq_symm_rec :
    ∀ (n : Nat) (a b : Value), sizeOf a ≤ n → wfv a = true →
      wfv b = true → vbeq a b = true → vbeq b a = true := by
  intro n
  induction n with
  | zero => intro a b ha _ _ _; cases a <;> simp at ha
  | succ n ih =>
      intro a b ha hwa hwb hab
      cases a with
      | null => cases b <;> first | rfl | exact Bool.noConfusion hab
      | boolean x =>
          cases b <;> try exact Bool.noConfusion hab
          rw [vbeq] at hab ⊢
          simp at hab ⊢
          exact hab.symm
      | str x =>
          cases b <;> try exact Bool.noConfusion hab
          rw [vbeq] at hab ⊢
          simp at hab ⊢
          exact hab.symm
      | num x =>
          cases b <;> try exact Bool.noConfusion hab
          rw [vbeq] at hab ⊢
          simp at hab ⊢
          exact hab.symm
      | empty => cases b <;> first | rfl | exact Bool.noConfusion hab
      | obj afs =>
          cases b <;> try exact Bool.noConfusion hab
          rename_i bfs
          have hsz : sizeOf afs ≤ n := by simp at ha; omega
          have hkeys := vbeq_obj_keys afs bfs hab
          refine vbeq_obj_intro bfs afs (wfFields_nodup bfs hwb)
            (fun k => (hkeys k).symm) ?_
          intro k hk
          have hak : containsKey afs k = true := by rw [hkeys k]; exact hk
          refine ih (alookup afs k) (alookup bfs k) ?_
            (wfFields_alookup afs k hwa) (wfFields_alookup bfs k hwb)
            (vbeq_obj_vals afs bfs hab k hak)
          have := sizeOf_alookup_lt afs k hak
          omega
      | arr aes =>
          cases b <;> try exact Bool.noConfusion hab
          rename_i bes
          have hsz : sizeOf aes ≤ n := by simp at ha; omega
          rw [vbeq] at hab ⊢
          have hlen := vbeqList_length aes bes hab
          refine vbeqList_intro bes aes hlen.symm fun i y x hy hx => ?_
          have hmem := List.get?_mem hx
          refine ih x y ?_ (wfList_mem aes hwa x hmem)
            (wfList_mem bes hwb y (List.get?_mem hy))
            (vbeqList_get aes bes hab i x y hx hy)
          have := sizeOf_elem_lt aes x hmem
          omega

/-- `vbeq` is symmetric on well-formed trees (packaged form). -/
theorem vbeq_symm (a b : Value) (hwa : wfv a = true) (hwb : wfv b = true)
    (h : vbeq a b = true) : vbeq b a = true :=
  vbeq_symm_rec (sizeOf a) a b (Nat.le_refl _) hwa hwb h

/-! #### The filter as a projection -/

theorem filterFields_length_le (cfs rfs : List (String × Value)) :
    (filterFields cfs rfs).length ≤ cfs.length := by
  induction cfs with
  | nil => simp [filterFields]
  | cons p rest ih =>
      obtain ⟨k, v⟩ := p
      rw [filterFields_cons]
      cases filterChangedMapWithRules v (alookup rfs k) with
      | none => simp; omega
      | some w => simp; omega

theorem filterFields_containsKey_le (cfs rfs : List (String × Value))
    (k : String) (h : containsKey (filterFields cfs rfs) k = true) :
    containsKey cfs k = true := by
  induction cfs with
  | nil => simp [filterFields, containsKey] at h
  | cons p rest ih =>
      obtain ⟨k0, v⟩ := p
      rw [filterFields_cons] at h
      cases hf : filterChangedMapWithRules v (alookup rfs k0) with
      | none =>
          rw [hf] at h
          simp only [containsKey, Bool.or_eq_true]
          exact Or.inr (ih h)
      | some w =>
          rw [hf] at h
          simp only [containsKey, Bool.or_eq_true] at h ⊢
          rcases h with h | h
          · exact Or.inl h
          · exact Or.inr (ih h)

/-- The filter is idempotent: its output is a fixed point, exactly. -/
theorem filter_fix_rec :
    ∀ n : Nat,
      (∀ (v rv w : Value), sizeOf v ≤ n →
        filterChangedMapWithRules v rv = some w →
        filterChangedMapWithRules w rv = some w) ∧
      (∀ (cfs rfs : List (String × Value)), sizeOf cfs ≤ n →
        filterFields (filterFields cfs rfs) rfs = filterFields cfs rfs) := by
  intro n
  induction n with
  | zero =>
      constructor
      · intro v rv w hv; cases v <;> simp at hv
      · intro cfs rfs hc; cases cfs <;> simp at hc
  | succ n ih =>
      constructor
      · intro v rv w hv hf
        cases v with
        | obj cfs =>
            cases rv <;> simp [filterChangedMapWithRules] at hf
            subst hf
            have hsz : sizeOf cfs ≤ n := by simp at hv; omega
            simp [filterChangedMapWithRules, ih.2 cfs _ hsz]
        | null =>
            simp [filterChangedMapWithRules] at hf
            subst hf
            rfl
        | boolean b =>
            cases rv <;> simp [filterChangedMapWithRules] at hf <;>
              subst hf <;> simp [filterChangedMapWithRules]
        | str s =>
            cases rv <;> simp [filterChangedMapWithRules] at hf <;>
              subst hf <;> simp [filterChangedMapWithRules]
        | num m =>
            cases rv <;> simp [filterChangedMapWithRules] at hf <;>
              subst hf <;> simp [filterChangedMapWithRules]
        | empty =>
            cases rv <;> simp [filterChangedMapWithRules] at hf <;>
              subst hf <;> simp [filterChangedMapWithRules]
        | arr es =>
            cases rv <;> simp [filterChangedMapWithRules] at hf <;>
              subst hf <;> simp [filterChangedMapWithRules]
      · intro cfs rfs hc
        induction cfs with
        | nil => rfl
        | cons p rest ihc =>
            obtain ⟨k, v⟩ := p
            have hrest : sizeOf rest ≤ n + 1 := by simp at hc ⊢; omega
            have hv : sizeOf v ≤ n := by simp at hc; omega
            rw [filterFields_cons]
            cases hf : filterChangedMapWithRules v (alookup rfs k) with
            | none => exact ihc hrest
            | some w =>
                rw [filterFields_cons, ih.1 v (alookup rfs k) w hv hf,
                  ihc hrest]

theorem filterChangedMapWithRules_fix (v rv w : Value)
    (hf : filterChangedMapWithRules v rv = some w) :
    filterChangedMapWithRules w rv = some w :=
  (filter_fix_rec (sizeOf v)).1 v rv w (Nat.le_refl _) hf

theorem filterFields_fix (cfs rfs : List (String × Value)) :
    filterFields (filterFields cfs rfs) rfs = filterFields cfs rfs :=
  (filter_fix_rec (sizeOf cfs)).2 cfs rfs (Nat.le_refl _)

/-- The filter preserves well-formedness. -/
theorem filter_wf_rec :
    ∀ n : Nat,
      (∀ (v rv w : Value), sizeOf v ≤ n → wfv v = true →
        filterChangedMapWithRules v rv = some w → wfv w = true) ∧
      (∀ (cfs rfs : List (String × Value)), sizeOf cfs ≤ n →
        wfFields cfs = true → wfFields (filterFields cfs rfs) = true) := by
  intro n
  induction n with
  | zero =>
      constructor
      · intro v rv w hv; cases v <;> simp at hv
      · intro cfs rfs hc; cases cfs <;> simp at hc
  | succ n ih =>
      constructor
      · intro v rv w hv hwf hf
        cases v with
        | obj cfs =>
            cases rv <;> simp [filterChangedMapWithRules] at hf
            subst hf
            have hsz : sizeOf cfs ≤ n := by simp at hv; omega
            exact ih.2 cfs _ hsz hwf
        | null =>
            simp [filterChangedMapWithRules] at hf
            subst hf
            rfl
        | boolean b =>
            cases rv <;> simp [filterChangedMapWithRules] at hf <;>
              subst hf <;> assumption
        | str s =>
            cases rv <;> simp [filterChangedMapWithRules] at hf <;>
              subst hf <;> assumption
        | num m =>
            cases rv <;> simp [filterChangedMapWithRules] at hf <;>
              subst hf <;> assumption
        | empty =>
            cases rv <;> simp [filterChangedMapWithRules] at hf <;>
              subst hf <;> assumption
        | arr es =>
            cases rv <;> simp [filterChangedMapWithRules] at hf <;>
              subst hf <;> assumption
      · intro cfs rfs hc hwf
        induction cfs with
        | nil => rfl
        | cons p rest ihc =>
            obtain ⟨k, v⟩ := p
            have hrest : sizeOf rest ≤ n + 1 := by simp at hc ⊢; omega
            have hv : sizeOf v ≤ n := by simp at hc; omega
            rw [wfFields, Bool.and_eq_true, Bool.and_eq_true] at hwf
            rw [filterFields_cons]
            cases hf : filterChangedMapWithRules v (alookup rfs k) with
            | none => exact ihc hrest hwf.2
            | some w =>
                rw [wfFields, Bool.and_eq_true, Bool.and_eq_true]
                refine ⟨⟨?_, ih.1 v (alookup rfs k) w hv hwf.1.2 hf⟩,
                  ihc hrest hwf.2⟩
                cases hck : containsKey (filterFields rest rfs) k with
                | false => rfl
                | true =>
                    have := filterFields_containsKey_le rest rfs k hck
                    rw [this] at hwf
                    exact Bool.noConfusion hwf.1.1

theorem filterChangedMapWithRules_wf (v rv w : Value) (hwf : wfv v = true)
    (hf : filterChangedMapWithRules v rv = some w) : wfv w = true :=
  (filter_wf_rec (sizeOf v)).1 v rv w (Nat.le_refl _) hwf hf

theorem filterFields_wf (cfs rfs : List (String × Value))
    (hwf : wfFields cfs = true) : wfFields (filterFields cfs rfs) = true :=
  (filter_wf_rec (sizeOf cfs)).2 cfs rfs (Nat.le_refl _) hwf

/-- A field list that is its own filter output filters each entry to
itself. -/
theorem filterFields_fix_entries (cfs rfs : List (String × Value))
    (h : filterFields cfs rfs = cfs) :
    ∀ p ∈ cfs, filterChangedMapWithRules p.2 (alookup rfs p.1) = some p.2 := by
  induction cfs with
  | nil => simp
  | cons p rest ih =>
      obtain ⟨k, v⟩ := p
      rw [filterFields_cons] at h
      cases hf : filterChangedMapWithRules v (alookup rfs k) with
      | none =>
          rw [hf] at h
          have h2 : filterFields rest rfs = (k, v) :: rest := h
          have := filterFields_length_le rest rfs
          rw [h2] at this
          simp at this
      | some w =>
          rw [hf] at h
          have h2 : (k, w) :: filterFields rest rfs = (k, v) :: rest := h
          rw [List.cons.injEq, Prod.mk.injEq] at h2
          obtain ⟨⟨_, hwv⟩, hrest⟩ := h2
          subst hwv
          intro q hq
          rcases List.mem_cons.mp hq with hq | hq
          · subst hq; exact hf
          · exact ih hrest q hq

/-! #### Preservation of well-formedness by the merge -/

theorem ResourceComparison_fst_mem (a b : Value) :
    (ResourceComparison a b).1 = a ∨ (ResourceComparison a b).1 = b := by
  rw [ResourceComparison]
  split
  · exact Or.inr rfl
  · exact Or.inl rfl

theorem containsKey_slotUpdate (l : List (String × Value)) (k k' : String)
    (v : Value) :
    containsKey (slotUpdate l k v) k'
      = (containsKey l k' || decide (k = k')) := by
  induction l with
  | nil => simp [slotUpdate, containsKey]
  | cons p rest ih =>
      obtain ⟨k0, w⟩ := p
      by_cases h0 : k0 = k
      · subst h0
        by_cases h1 : k0 = k' <;> simp [slotUpdate, containsKey, h1]
      · by_cases h1 : k0 = k'
        · subst h1
          simp [slotUpdate, containsKey, h0]
        · simp [slotUpdate, containsKey, h0, h1, ih]

theorem nodupKeys_slotUpdate (l : List (String × Value)) (k : String)
    (v : Value) (h : nodupKeys l = true) :
    nodupKeys (slotUpdate l k v) = true := by
  induction l with
  | nil => simp [slotUpdate, nodupKeys, containsKey]
  | cons p rest ih =>
      obtain ⟨k0, w⟩ := p
      simp only [nodupKeys, Bool.and_eq_true, Bool.not_eq_true'] at h
      by_cases h0 : k0 = k
      · subst h0
        simp [slotUpdate, nodupKeys, h.1, h.2]
      · simp only [slotUpdate, if_neg h0, nodupKeys, Bool.and_eq_true,
          Bool.not_eq_true']
        refine ⟨?_, ih h.2⟩
        rw [containsKey_slotUpdate]
        simp [h.1, Ne.symm h0]

theorem wfFields_slotUpdate (l : List (String × Value)) (k : String)
    (v : Value) (hl : wfFields l = true) (hv : wfv v = true) :
    wfFields (slotUpdate l k v) = true := by
  induction l with
  | nil => simp [slotUpdate, wfFields, containsKey, hv]
  | cons p rest ih =>
      obtain ⟨k0, w⟩ := p
      simp only [wfFields, Bool.and_eq_true] at hl
      by_cases h0 : k0 = k
      · subst h0
        simp only [slotUpdate, if_pos rfl, wfFields, Bool.and_eq_true]
        exact ⟨⟨hl.1.1, hv⟩, hl.2⟩
      · simp only [slotUpdate, if_neg h0, wfFields, Bool.and_eq_true]
        refine ⟨⟨?_, hl.1.2⟩, ih hl.2⟩
        rw [containsKey_slotUpdate]
        have h1 : containsKey rest k0 = false := by
          simpa using hl.1.1
        simp [h1, Ne.symm h0]

theorem wfList_get (l : List Value) (i : Nat) (x : Value)
    (h : wfList l = true) (hg : l.get? i = some x) : wfv x = true :=
  wfList_mem l h x (List.get?_mem hg)

theorem wfList_set (l : List Value) (i : Nat) (x : Value)
    (h : wfList l = true) (hx : wfv x = true) :
    wfList (l.set i x) = true := by
  induction l generalizing i with
  | nil => rfl
  | cons y rest ih =>
      simp only [wfList, Bool.and_eq_true] at h
      cases i with
      | zero =>
          rw [List.set_cons_zero, wfList, Bool.and_eq_true]
          exact ⟨hx, h.2⟩
      | succ j =>
          rw [List.set_cons_succ, wfList, Bool.and_eq_true]
          exact ⟨h.1, ih j h.2⟩

theorem wfList_append_one (l : List Value) (x : Value)
    (h : wfList l = true) (hx : wfv x = true) :
    wfList (l ++ [x]) = true := by
  induction l with
  | nil => simp [wfList, hx]
  | cons y rest ih =>
      simp only [wfList, Bool.and_eq_true] at h
      simp only [List.cons_append, wfList, Bool.and_eq_true]
      exact ⟨h.1, ih h.2⟩

/-- One iteration of the list loop of the merge, as a step function. -/
def mergeArrStep (directAssign : Bool) (clen i : Nat) (acc : List Value)
    (d : Value) : List Value :=
  match d with
  | .obj dfs =>
      if clen ≤ i then acc ++ [d]
      else
        match acc.get? i with
        | some (.obj cfs) => acc.set i (.obj (mergeFields directAssign dfs cfs))
        | _ => acc
  | _ => acc

theorem mergeArr_cons (directAssign : Bool) (d : Value) (rest : List Value)
    (i clen : Nat) (acc : List Value) :
    mergeArr directAssign (d :: rest) i clen acc =
      mergeArr directAssign rest (i + 1) clen
        (mergeArrStep directAssign clen i acc d) := by
  cases d <;> rfl

/-- The rule-filtered merge preserves well-formedness. -/
theorem merge_wf_rec :
    ∀ n : Nat,
      (∀ (k : String) (dv cv : Value) (da : Bool) (r : Value),
        sizeOf dv ≤ n → wfv dv = true → wfv cv = true →
        mergeChangedMap k dv cv da = some r → wfv r = true) ∧
      (∀ (da : Bool) (dfs acc : List (String × Value)), sizeOf dfs ≤ n →
        wfFields dfs = true → wfFields acc = true →
        wfFields (mergeFields da dfs acc) = true) ∧
      (∀ (da : Bool) (ds : List Value) (i clen : Nat) (acc : List Value),
        sizeOf ds ≤ n → wfList ds = true → wfList acc = true →
        wfList (mergeArr da ds i clen acc) = true) := by
  intro n
  induction n with
  | zero =>
      refine ⟨?_, ?_, ?_⟩
      · intro k dv cv da r h; cases dv <;> simp at h
      · intro da dfs acc h; cases dfs <;> simp at h
      · intro da ds i clen acc h; cases ds <;> simp at h
  | succ n ih =>
      refine ⟨?_, ?_, ?_⟩
      · intro k dv cv da r hsz hwd hwc hm
        unfold mergeChangedMap at hm
        split at hm
        · exact Option.noConfusion hm
        · split at hm
          · injection hm with hm; subst hm; exact hwd
          · injection hm with hm; subst hm
            rename_i dfs cfs hg
            have hd : sizeOf dfs ≤ n := by simp at hsz; omega
            exact ih.2.1 da dfs cfs hd hwd hwc
          · exact Option.noConfusion hm
          · injection hm with hm; subst hm; exact hwd
          · injection hm with hm; subst hm
            rename_i ds cs hg
            have hd : sizeOf ds ≤ n := by simp at hsz; omega
            exact ih.2.2 da ds 0 cs.length cs hd hwd hwc
          · exact Option.noConfusion hm
          · injection hm with hm; subst hm; exact hwd
          · split at hm
            · injection hm with hm; subst hm
              split
              · exact hwc
              · rcases ResourceComparison_fst_mem dv cv with h | h <;>
                  rw [h] <;> assumption
            · exact Option.noConfusion hm
      · intro da dfs acc hsz hwd hwa
        induction dfs generalizing acc with
        | nil => exact hwa
        | cons p rest ihf =>
            obtain ⟨k, dv⟩ := p
            have hrest : sizeOf rest ≤ n + 1 := by simp at hsz ⊢; omega
            have hdv : sizeOf dv ≤ n := by simp at hsz; omega
            rw [wfFields, Bool.and_eq_true, Bool.and_eq_true] at hwd
            rw [mergeFields_cons]
            unfold mergeStep
            cases hm : mergeChangedMap k dv (alookup acc k) da with
            | none => exact ihf _ hrest hwd.2 hwa
            | some r =>
                refine ihf _ hrest hwd.2 ?_
                refine wfFields_slotUpdate acc k r hwa ?_
                exact ih.1 k dv (alookup acc k) da r hdv hwd.1.2
                  (wfFields_alookup acc k hwa) hm
      · intro da ds i clen acc hsz hwd hwa
        induction ds generalizing i acc with
        | nil => exact hwa
        | cons d rest ihl =>
            have hrest : sizeOf rest ≤ n + 1 := by simp at hsz ⊢; omega
            have hd : sizeOf d ≤ n := by simp at hsz; omega
            rw [wfList, Bool.and_eq_true] at hwd
            rw [mergeArr_cons]
            refine ihl (i + 1) _ hrest hwd.2 ?_
            unfold mergeArrStep
            cases d with
            | obj dfs =>
                by_cases hlen : clen ≤ i
                · simp only [if_pos hlen]
                  exact wfList_append_one acc _ hwa hwd.1
                · simp only [if_neg hlen]
                  cases hg : acc.get? i with
                  | none => exact hwa
                  | some x =>
                      cases x with
                      | obj cfs =>
                          refine wfList_set acc i _ hwa ?_
                          have hdfs : sizeOf dfs ≤ n := by
                            simp at hd ⊢; omega
                          exact ih.2.1 da dfs cfs hdfs hwd.1
                            (wfList_get acc i (.obj cfs) hwa hg)
                      | null => exact hwa
                      | boolean b => exact hwa
                      | str s => exact hwa
                      | num m => exact hwa
                      | empty => exact hwa
                      | arr es => exact hwa
            | null => exact hwa
            | boolean b => exact hwa
            | str s => exact hwa
            | num m => exact hwa
            | empty => exact hwa
            | arr es => exact hwa

theorem mergeChangedMap_wf (k : String) (dv cv : Value) (da : Bool)
    (r : Value) (hwd : wfv dv = true) (hwc : wfv cv = true)
    (hm : mergeChangedMap k dv cv da = some r) : wfv r = true :=
  (merge_wf_rec (sizeOf dv)).1 k dv cv da r (Nat.le_refl _) hwd hwc hm

theorem mergeFields_wf (da : Bool) (dfs acc : List (String × Value))
    (hwd : wfFields dfs = true) (hwa : wfFields acc = true) :
    wfFields (mergeFields da dfs acc) = true :=
  (merge_wf_rec (sizeOf dfs)).2.1 da dfs acc (Nat.le_refl _) hwd hwa

/-- Merging a default map whose every bound key already reads `vbeq`-equal
in the accumulator is a no-op, exactly. -/
theorem mergeFields_noop (da : Bool) (dfs acc : List (String × Value))
    (hnd : nodupKeys dfs = true)
    (h : ∀ k, containsKey dfs k = true →
      vbeq (alookup dfs k) (alookup acc k) = true) :
    mergeFields da dfs acc = acc := by
  induction dfs with
  | nil => rfl
  | cons p rest ih =>
      obtain ⟨k, dv⟩ := p
      simp only [nodupKeys, Bool.and_eq_true, Bool.not_eq_true'] at hnd
      rw [mergeFields_cons]
      unfold mergeStep
      have hk : vbeq dv (alookup acc k) = true := by
        have := h k (by simp [containsKey])
        simpa [alookup] using this
      have hmm : mergeChangedMap k dv (alookup acc k) da = none := by
        unfold mergeChangedMap
        rw [if_pos hk]
      rw [hmm]
      refine ih hnd.2 fun k' hk' => ?_
      have hne : k ≠ k' := by
        intro hcontr
        subst hcontr
        rw [hk'] at hnd
        exact Bool.noConfusion hnd.1
      have := h k' (by simp [containsKey, hk'])
      simpa [alookup, hne] using this

/-! #### Slot-level view of the two merge passes -/

/-- The fate of one changed-map slot under `mergeChangedMap`: the Go loop
writes the returned value into the slot or leaves the slot alone. -/
def mSlot (k : String) (dv : Value) (da : Bool) (c : Option Value) :
    Option Value :=
  match mergeChangedMap k dv (c.getD .null) da with
  | none => c
  | some r => some r

/-- The optional rule filter applied to one slot between the two passes:
the identity when `overwrite` is set, the filter against the rules entry
otherwise. -/
def slotPass (ow : Bool) (rk : Value) (c : Option Value) : Option Value :=
  if ow then c else c.bind fun v => filterChangedMapWithRules v rk

/-- The map carried into the second pass: the first pass output itself when
`overwrite` is set, its rule-filtered form otherwise. -/
def passFields (ow : Bool) (rfs mf : List (String × Value)) :
    List (String × Value) :=
  if ow then mf else filterFields mf rfs

theorem slotPass_true (rk : Value) (c : Option Value) :
    slotPass true rk c = c := rfl

theorem slotPass_false (rk : Value) (c : Option Value) :
    slotPass false rk c = c.bind fun v => filterChangedMapWithRules v rk :=
  rfl

theorem slotPass_fix (ow : Bool) (rk : Value) (c : Option Value)
    (h : ow = false → ∀ w, c = some w →
      filterChangedMapWithRules w rk = some w) :
    slotPass ow rk c = c := by
  cases ow with
  | true => rfl
  | false =>
      cases c with
      | none => rfl
      | some w => simp [slotPass, h rfl w rfl]

theorem mSlot_none (k : String) (dv : Value) (da : Bool) (c : Option Value)
    (h : mergeChangedMap k dv (c.getD .null) da = none) :
    mSlot k dv da c = c := by
  simp [mSlot, h]

theorem fget_mem (l : List (String × Value)) (k : String) (v : Value)
    (h : fget l k = some v) : (k, v) ∈ l := by
  induction l with
  | nil => simp [fget] at h
  | cons p rest ih =>
      obtain ⟨k0, v0⟩ := p
      by_cases h0 : k0 = k
      · subst h0
        simp [fget] at h
        subst h
        exact List.mem_cons_self _ _
      · simp only [fget, if_neg h0] at h
        exact List.mem_cons_of_mem _ (ih h)

theorem oEq_refl (c : Option Value)
    (h : ∀ w, c = some w → wfv w = true) : oEq c c = true := by
  cases c with
  | none => rfl
  | some w => simpa [oEq] using vbeq_refl w (h w rfl)

theorem oEq_isSome (a b : Option Value) (h : oEq a b = true) :
    a.isSome = b.isSome := by
  cases a <;> cases b <;> simp_all [oEq]

theorem oEq_getD (a b : Option Value) (h : oEq a b = true)
    (hs : a.isSome = true) :
    vbeq (a.getD .null) (b.getD .null) = true := by
  cases a with
  | none => simp at hs
  | some x =>
      cases b with
      | none => simp [oEq] at h
      | some y => simpa [oEq] using h

/-! #### Direct computation rules for `mergeChangedMap` and the filter -/

theorem mergeChangedMap_guard (k : String) (dv cv : Value) (da : Bool)
    (h : vbeq dv cv = true) : mergeChangedMap k dv cv da = none := by
  unfold mergeChangedMap
  rw [h]
  rfl

theorem mergeChangedMap_obj_null (k : String)
    (dfs : List (String × Value)) (da : Bool) :
    mergeChangedMap k (.obj dfs) .null da = some (.obj dfs) := rfl

theorem mergeChangedMap_arr_null (k : String) (ds : List Value)
    (da : Bool) : mergeChangedMap k (.arr ds) .null da = some (.arr ds) :=
  rfl

theorem mergeChangedMap_scalar_null (k : String) (dv : Value) (da : Bool)
    (h : isScalarValue dv = true) :
    mergeChangedMap k dv .null da = some dv := by
  cases dv with
  | null => exact Bool.noConfusion h
  | obj fs => exact Bool.noConfusion h
  | arr es => exact Bool.noConfusion h
  | boolean b => rfl
  | str s => rfl
  | num m => rfl
  | empty => rfl

theorem mergeChangedMap_obj_obj (k : String)
    (dfs cfs : List (String × Value)) (da : Bool)
    (h : vbeq (.obj dfs) (.obj cfs) = false) :
    mergeChangedMap k (.obj dfs) (.obj cfs) da =
      some (.obj (mergeFields da dfs cfs)) := by
  unfold mergeChangedMap
  rw [h]
  rfl

theorem mergeChangedMap_arr_arr (k : String) (ds cs : List Value)
    (da : Bool) (h : vbeq (.arr ds) (.arr cs) = false) :
    mergeChangedMap k (.arr ds) (.arr cs) da =
      some (.arr (mergeArr da ds 0 cs.length cs)) := by
  unfold mergeChangedMap
  rw [h]
  rfl

theorem filter_null_v (rv : Value) :
    filterChangedMapWithRules .null rv = some .null := rfl

theorem filter_obj (cfs : List (String × Value)) (rv : Value) :
    filterChangedMapWithRules (.obj cfs) rv =
      match rv with
      | .obj rfs => some (.obj (filterFields cfs rfs))
      | _ => none := by
  cases rv <;> rfl

theorem filter_nonmap_null (v : Value) (h1 : ∀ fs, v ≠ Value.obj fs)
    (h2 : v ≠ .null) :
    filterChangedMapWithRules v .null = none := by
  cases v <;> first
    | exact absurd rfl (h1 _)
    | exact absurd rfl h2
    | rfl

theorem filter_nonmap_some (v rv : Value) (h1 : ∀ fs, v ≠ Value.obj fs)
    (h2 : v ≠ .null) (h3 : rv ≠ .null) :
    filterChangedMapWithRules v rv = some v := by
  cases v <;> cases rv <;> first
    | exact absurd rfl (h1 _)
    | exact absurd rfl h2
    | exact absurd rfl h3
    | rfl

theorem goodv_obj (fs : List (String × Value)) :
    goodv (.obj fs) = goodFields fs := rfl

theorem goodv_arr (es : List Value) : goodv (.arr es) = goodArr es := rfl

theorem goodArr_get (ds : List Value) (j : Nat) (x : Value)
    (hg : goodArr ds = true) (hx : ds.get? j = some x) :
    ∃ dfs, x = .obj dfs ∧ goodFields dfs = true := by
  induction ds generalizing j with
  | nil => simp at hx
  | cons d rest ih =>
      cases d with
      | obj dfs =>
          rw [goodArr, Bool.and_eq_true] at hg
          cases j with
          | zero =>
              simp only [List.get?] at hx
              injection hx with hx
              exact ⟨dfs, hx.symm, hg.1⟩
          | succ j0 => exact ih j0 hg.2 hx
      | null => exact Bool.noConfusion hg
      | boolean b => exact Bool.noConfusion hg
      | str s => exact Bool.noConfusion hg
      | num m => exact Bool.noConfusion hg
      | empty => exact Bool.noConfusion hg
      | arr es => exact Bool.noConfusion hg

theorem mergeArr_wf (da : Bool) (ds : List Value) (i clen : Nat)
    (acc : List Value) (hwd : wfList ds = true) (hwa : wfList acc = true) :
    wfList (mergeArr da ds i clen acc) = true :=
  (merge_wf_rec (sizeOf ds)).2.2 da ds i clen acc (Nat.le_refl _) hwd hwa

/-! #### Positional behaviour of the list-merge loop -/

theorem mergeArrStep_length (da : Bool) (clen i : Nat) (acc : List Value)
    (dfs : List (String × Value)) (hlen : acc.length = max clen i) :
    (mergeArrStep da clen i acc (.obj dfs)).length = max clen (i + 1) := by
  unfold mergeArrStep
  by_cases hc : clen ≤ i
  · simp only [if_pos hc, List.length_append, List.length_cons,
      List.length_nil]
    omega
  · simp only [if_neg hc]
    cases hgi : acc.get? i with
    | none => exact hlen.trans (by omega)
    | some x =>
        cases x with
        | obj cfs =>
            rw [List.length_set]
            omega
        | null => exact hlen.trans (by omega)
        | boolean b => exact hlen.trans (by omega)
        | str s => exact hlen.trans (by omega)
        | num m => exact hlen.trans (by omega)
        | empty => exact hlen.trans (by omega)
        | arr es => exact hlen.trans (by omega)

theorem mergeArr_length (da : Bool) (ds : List Value) (clen : Nat)
    (hg : goodArr ds = true) :
    ∀ (i : Nat) (acc : List Value), acc.length = max clen i →
      (mergeArr da ds i clen acc).length = max clen (i + ds.length) := by
  induction ds with
  | nil => intro i acc hlen; simpa using hlen
  | cons d rest ih =>
      intro i acc hlen
      cases d with
      | obj dfs =>
          rw [goodArr, Bool.and_eq_true] at hg
          rw [mergeArr_cons]
          have hstep := mergeArrStep_length da clen i acc dfs hlen
          have := ih hg.2 (i + 1) _ hstep
          rw [this]
          simp only [List.length_cons]
          omega
      | null => exact Bool.noConfusion hg
      | boolean b => exact Bool.noConfusion hg
      | str s => exact Bool.noConfusion hg
      | num m => exact Bool.noConfusion hg
      | empty => exact Bool.noConfusion hg
      | arr es => exact Bool.noConfusion hg

theorem mergeArrStep_get_ne (da : Bool) (clen i : Nat) (acc : List Value)
    (d : Value) (j : Nat) (hlen : acc.length = max clen i) (hne : j ≠ i) :
    (mergeArrStep da clen i acc d).get? j = acc.get? j := by
  unfold mergeArrStep
  cases d with
  | obj dfs =>
      by_cases hc : clen ≤ i
      · simp only [if_pos hc]
        by_cases hj : j < acc.length
        · exact List.get?_append hj
        · rw [List.get?_eq_none.mpr (by simp; omega),
            List.get?_eq_none.mpr (by omega)]
      · simp only [if_neg hc]
        cases hgi : acc.get? i with
        | none => rfl
        | some x =>
            cases x <;> first
              | rfl
              | exact List.get?_set_ne _ _ (Ne.symm hne)
  | null => rfl
  | boolean b => rfl
  | str s => rfl
  | num m => rfl
  | empty => rfl
  | arr es => rfl

theorem mergeArr_get_out (da : Bool) (ds : List Value) (clen : Nat)
    (hg : goodArr ds = true) :
    ∀ (i : Nat) (acc : List Value), acc.length = max clen i →
      ∀ j : Nat, j < i ∨ i + ds.length ≤ j →
        (mergeArr da ds i clen acc).get? j = acc.get? j := by
  induction ds with
  | nil => intro i acc _ j _; rfl
  | cons d rest ih =>
      intro i acc hlen j hj
      cases d with
      | obj dfs =>
          rw [goodArr, Bool.and_eq_true] at hg
          rw [mergeArr_cons]
          have hstep := mergeArrStep_length da clen i acc dfs hlen
          have hne : j ≠ i := by
            simp only [List.length_cons] at hj
            omega
          rw [ih hg.2 (i + 1) _ hstep j (by simp at hj; omega)]
          exact mergeArrStep_get_ne da clen i acc (.obj dfs) j hlen hne
      | null => exact Bool.noConfusion hg
      | boolean b => exact Bool.noConfusion hg
      | str s => exact Bool.noConfusion hg
      | num m => exact Bool.noConfusion hg
      | empty => exact Bool.noConfusion hg
      | arr es => exact Bool.noConfusion hg

/-- What the list loop leaves at a position it processes: the default map
element is appended verbatim past the original changed length, merged
field-by-field into a changed map element, and dropped otherwise. -/
theorem mergeArr_get_in (da : Bool) (ds : List Value) (clen : Nat)
    (hg : goodArr ds = true) :
    ∀ (i : Nat) (acc : List Value), acc.length = max clen i →
      ∀ (j : Nat) (dfs : List (String × Value)), i ≤ j →
        ds.get? (j - i) = some (.obj dfs) →
        (mergeArr da ds i clen acc).get? j =
          if j < clen then
            match acc.get? j with
            | some (.obj cfs) => some (.obj (mergeFields da dfs cfs))
            | o => o
          else some (.obj dfs) := by
  induction ds with
  | nil => intro i acc _ j dfs _ hget; simp at hget
  | cons d rest ih =>
      intro i acc hlen j dfs hij hget
      cases d with
      | obj dfs0 =>
          rw [goodArr, Bool.and_eq_true] at hg
          rw [mergeArr_cons]
          have hstep := mergeArrStep_length da clen i acc dfs0 hlen
          by_cases hji : j = i
          · subst hji
            simp only [Nat.sub_self, List.get?] at hget
            injection hget with hget
            injection hget with hget
            subst hget
            rw [mergeArr_get_out da rest clen hg.2 (j + 1) _ hstep j
              (Or.inl (Nat.lt_succ_self j))]
            unfold mergeArrStep
            by_cases hc : clen ≤ j
            · simp only [if_pos hc]
              rw [if_neg (by omega)]
              have : acc.length = j := by omega
              rw [List.get?_append_right (by omega)]
              simp [this]
            · simp only [if_neg hc]
              rw [if_pos (by omega)]
              cases hgj : acc.get? j with
              | none =>
                  rw [List.get?_eq_none] at hgj
                  omega
              | some x =>
                  cases x with
                  | obj cfs =>
                      exact List.get?_set_eq_of_lt _ (by omega)
                  | null => exact hgj
                  | boolean b => exact hgj
                  | str s => exact hgj
                  | num m => exact hgj
                  | empty => exact hgj
                  | arr es => exact hgj
          · have hij1 : i + 1 ≤ j := by omega
            have hget1 : rest.get? (j - (i + 1)) = some (.obj dfs) := by
              have : j - i = (j - (i + 1)) + 1 := by omega
              rw [this] at hget
              exact hget
            rw [ih hg.2 (i + 1) _ hstep j dfs hij1 hget1]
            rw [mergeArrStep_get_ne da clen i acc (.obj dfs0) j hlen
              (by omega)]
      | null => exact Bool.noConfusion hg
      | boolean b => exact Bool.noConfusion hg
      | str s => exact Bool.noConfusion hg
      | num m => exact Bool.noConfusion hg
      | empty => exact Bool.noConfusion hg
      | arr es => exact Bool.noConfusion hg


/-! #### Merging a default into the filtered image of itself -/

theorem fget_of_containsKey (l : List (String × Value)) (k : String)
    (h : containsKey l k = true) : fget l k = some (alookup l k) := by
  cases hf : fget l k with
  | none =>
      rw [containsKey_eq_isSome_fget, hf] at h
      exact Bool.noConfusion h
  | some w =>
      rw [alookup_eq_fget, hf]
      rfl

theorem fget_none_of_not_containsKey (l : List (String × Value))
    (k : String) (h : containsKey l k = false) : fget l k = none := by
  cases hf : fget l k with
  | none => rfl
  | some w =>
      rw [containsKey_eq_isSome_fget, hf] at h
      exact Bool.noConfusion h

/-- The default-keyed fold, slot by slot: untouched off the default's keys,
`mSlot` on them. -/
theorem fget_mergeFields_mSlot (da : Bool)
    (dfs acc : List (String × Value)) (k : String)
    (hnd : nodupKeys dfs = true) :
    fget (mergeFields da dfs acc) k =
      if containsKey dfs k then mSlot k (alookup dfs k) da (fget acc k)
      else fget acc k := by
  rw [fget_mergeFields da dfs acc k hnd]
  by_cases hck : containsKey dfs k
  · simp only [if_pos hck]
    unfold mSlot
    rw [alookup_eq_fget acc k]
  · simp only [if_neg hck]

/-- Merging a default value into the rule-filtered image of itself reads
back `vbeq`-equal to the default: the filter only deletes entries the merge
restores from the default. -/
theorem restore_rec :
    ∀ n : Nat,
      (∀ (k : String) (da : Bool) (rv v : Value), sizeOf v ≤ n →
        wfv v = true →
        oEq (mSlot k v da (filterChangedMapWithRules v rv)) (some v) = true)
      ∧
      (∀ (da : Bool) (rfs dfs : List (String × Value)), sizeOf dfs ≤ n →
        wfFields dfs = true →
        vbeq (.obj (mergeFields da dfs (filterFields dfs rfs)))
          (.obj dfs) = true) := by
  intro n
  induction n with
  | zero =>
      constructor
      · intro k da rv v hsz; cases v <;> simp at hsz
      · intro da rfs dfs hsz; cases dfs <;> simp at hsz
  | succ n ih =>
      constructor
      · intro k da rv v hsz hw
        cases v with
        | null => rfl
        | obj ofs =>
            cases rv with
            | obj orfs =>
                by_cases hb : vbeq (.obj ofs)
                    (.obj (filterFields ofs orfs)) = true
                · have hm := mergeChangedMap_guard k (.obj ofs)
                    (.obj (filterFields ofs orfs)) da hb
                  have hwF : wfv (.obj (filterFields ofs orfs)) = true :=
                    filterFields_wf ofs orfs hw
                  simpa [filterChangedMapWithRules, mSlot, hm, oEq] using
                    vbeq_symm _ _ hw hwF hb
                · rw [Bool.not_eq_true] at hb
                  have hm := mergeChangedMap_obj_obj k ofs
                    (filterFields ofs orfs) da hb
                  have hsz2 : sizeOf ofs ≤ n := by simp at hsz; omega
                  simpa [filterChangedMapWithRules, mSlot, hm, oEq] using
                    ih.2 da orfs ofs hsz2 hw
            | null =>
                simpa [filterChangedMapWithRules, mSlot,
                  mergeChangedMap_obj_null, oEq] using vbeq_refl _ hw
            | boolean b =>
                simpa [filterChangedMapWithRules, mSlot,
                  mergeChangedMap_obj_null, oEq] using vbeq_refl _ hw
            | str s =>
                simpa [filterChangedMapWithRules, mSlot,
                  mergeChangedMap_obj_null, oEq] using vbeq_refl _ hw
            | num m =>
                simpa [filterChangedMapWithRules, mSlot,
                  mergeChangedMap_obj_null, oEq] using vbeq_refl _ hw
            | empty =>
                simpa [filterChangedMapWithRules, mSlot,
                  mergeChangedMap_obj_null, oEq] using vbeq_refl _ hw
            | arr res =>
                simpa [filterChangedMapWithRules, mSlot,
                  mergeChangedMap_obj_null, oEq] using vbeq_refl _ hw
        | arr es =>
            cases rv with
            | null =>
                simpa [filterChangedMapWithRules, mSlot,
                  mergeChangedMap_arr_null, oEq] using vbeq_refl _ hw
            | obj orfs =>
                have hm := mergeChangedMap_guard k (.arr es) (.arr es) da
                  (vbeq_refl _ hw)
                simpa [filterChangedMapWithRules, mSlot, hm, oEq] using
                  vbeq_refl _ hw
            | boolean b =>
                have hm := mergeChangedMap_guard k (.arr es) (.arr es) da
                  (vbeq_refl _ hw)
                simpa [filterChangedMapWithRules, mSlot, hm, oEq] using
                  vbeq_refl _ hw
            | str s =>
                have hm := mergeChangedMap_guard k (.arr es) (.arr es) da
                  (vbeq_refl _ hw)
                simpa [filterChangedMapWithRules, mSlot, hm, oEq] using
                  vbeq_refl _ hw
            | num m =>
                have hm := mergeChangedMap_guard k (.arr es) (.arr es) da
                  (vbeq_refl _ hw)
                simpa [filterChangedMapWithRules, mSlot, hm, oEq] using
                  vbeq_refl _ hw
            | empty =>
                have hm := mergeChangedMap_guard k (.arr es) (.arr es) da
                  (vbeq_refl _ hw)
                simpa [filterChangedMapWithRules, mSlot, hm, oEq] using
                  vbeq_refl _ hw
            | arr res =>
                have hm := mergeChangedMap_guard k (.arr es) (.arr es) da
                  (vbeq_refl _ hw)
                simpa [filterChangedMapWithRules, mSlot, hm, oEq] using
                  vbeq_refl _ hw
        | boolean b =>
            cases rv with
            | null =>
                simpa [filterChangedMapWithRules, mSlot,
                  mergeChangedMap_scalar_null k (.boolean b) da rfl, oEq]
                  using vbeq_refl (Value.boolean b) rfl
            | obj orfs =>
                have hm := mergeChangedMap_guard k (.boolean b) (.boolean b)
                  da (vbeq_refl _ rfl)
                simpa [filterChangedMapWithRules, mSlot, hm, oEq] using
                  vbeq_refl (Value.boolean b) rfl
            | boolean c =>
                have hm := mergeChangedMap_guard k (.boolean b) (.boolean b)
                  da (vbeq_refl _ rfl)
                simpa [filterChangedMapWithRules, mSlot, hm, oEq] using
                  vbeq_refl (Value.boolean b) rfl
            | str s =>
                have hm := mergeChangedMap_guard k (.boolean b) (.boolean b)
                  da (vbeq_refl _ rfl)
                simpa [filterChangedMapWithRules, mSlot, hm, oEq] using
                  vbeq_refl (Value.boolean b) rfl
            | num m =>
                have hm := mergeChangedMap_guard k (.boolean b) (.boolean b)
                  da (vbeq_refl _ rfl)
                simpa [filterChangedMapWithRules, mSlot, hm, oEq] using
                  vbeq_refl (Value.boolean b) rfl
            | empty =>
                have hm := mergeChangedMap_guard k (.boolean b) (.boolean b)
                  da (vbeq_refl _ rfl)
                simpa [filterChangedMapWithRules, mSlot, hm, oEq] using
                  vbeq_refl (Value.boolean b) rfl
            | arr res =>
                have hm := mergeChangedMap_guard k (.boolean b) (.boolean b)
                  da (vbeq_refl _ rfl)
                simpa [filterChangedMapWithRules, mSlot, hm, oEq] using
                  vbeq_refl (Value.boolean b) rfl
        | str t =>
            cases rv with
            | null =>
                simpa [filterChangedMapWithRules, mSlot,
                  mergeChangedMap_scalar_null k (.str t) da rfl, oEq]
                  using vbeq_refl (Value.str t) rfl
            | obj orfs =>
                have hm := mergeChangedMap_guard k (.str t) (.str t)
                  da (vbeq_refl _ rfl)
                simpa [filterChangedMapWithRules, mSlot, hm, oEq] using
                  vbeq_refl (Value.str t) rfl
            | boolean c =>
                have hm := mergeChangedMap_guard k (.str t) (.str t)
                  da (vbeq_refl _ rfl)
                simpa [filterChangedMapWithRules, mSlot, hm, oEq] using
                  vbeq_refl (Value.str t) rfl
            | str s =>
                have hm := mergeChangedMap_guard k (.str t) (.str t)
                  da (vbeq_refl _ rfl)
                simpa [filterChangedMapWithRules, mSlot, hm, oEq] using
                  vbeq_refl (Value.str t) rfl
            | num m =>
                have hm := mergeChangedMap_guard k (.str t) (.str t)
                  da (vbeq_refl _ rfl)
                simpa [filterChangedMapWithRules, mSlot, hm, oEq] using
                  vbeq_refl (Value.str t) rfl
            | empty =>
                have hm := mergeChangedMap_guard k (.str t) (.str t)
                  da (vbeq_refl _ rfl)
                simpa [filterChangedMapWithRules, mSlot, hm, oEq] using
                  vbeq_refl (Value.str t) rfl
            | arr res =>
                have hm := mergeChangedMap_guard k (.str t) (.str t)
                  da (vbeq_refl _ rfl)
                simpa [filterChangedMapWithRules, mSlot, hm, oEq] using
                  vbeq_refl (Value.str t) rfl
        | num q =>
            cases rv with
            | null =>
                simpa [filterChangedMapWithRules, mSlot,
                  mergeChangedMap_scalar_null k (.num q) da rfl, oEq]
                  using vbeq_refl (Value.num q) rfl
            | obj orfs =>
                have hm := mergeChangedMap_guard k (.num q) (.num q)
                  da (vbeq_refl _ rfl)
                simpa [filterChangedMapWithRules, mSlot, hm, oEq] using
                  vbeq_refl (Value.num q) rfl
            | boolean c =>
                have hm := mergeChangedMap_guard k (.num q) (.num q)
                  da (vbeq_refl _ rfl)
                simpa [filterChangedMapWithRules, mSlot, hm, oEq] using
                  vbeq_refl (Value.num q) rfl
            | str s =>
                have hm := mergeChangedMap_guard k (.num q) (.num q)
                  da (vbeq_refl _ rfl)
                simpa [filterChangedMapWithRules, mSlot, hm, oEq] using
                  vbeq_refl (Value.num q) rfl
            | num m =>
                have hm := mergeChangedMap_guard k (.num q) (.num q)
                  da (vbeq_refl _ rfl)
                simpa [filterChangedMapWithRules, mSlot, hm, oEq] using
                  vbeq_refl (Value.num q) rfl
            | empty =>
                have hm := mergeChangedMap_guard k (.num q) (.num q)
                  da (vbeq_refl _ rfl)
                simpa [filterChangedMapWithRules, mSlot, hm, oEq] using
                  vbeq_refl (Value.num q) rfl
            | arr res =>
                have hm := mergeChangedMap_guard k (.num q) (.num q)
                  da (vbeq_refl _ rfl)
                simpa [filterChangedMapWithRules, mSlot, hm, oEq] using
                  vbeq_refl (Value.num q) rfl
        | empty =>
            cases rv with
            | null =>
                simpa [filterChangedMapWithRules, mSlot,
                  mergeChangedMap_scalar_null k .empty da rfl, oEq]
                  using vbeq_refl Value.empty rfl
            | obj orfs =>
                have hm := mergeChangedMap_guard k .empty .empty
                  da (vbeq_refl _ rfl)
                simpa [filterChangedMapWithRules, mSlot, hm, oEq] using
                  vbeq_refl Value.empty rfl
            | boolean c =>
                have hm := mergeChangedMap_guard k .empty .empty
                  da (vbeq_refl _ rfl)
                simpa [filterChangedMapWithRules, mSlot, hm, oEq] using
                  vbeq_refl Value.empty rfl
            | str s =>
                have hm := mergeChangedMap_guard k .empty .empty
                  da (vbeq_refl _ rfl)
                simpa [filterChangedMapWithRules, mSlot, hm, oEq] using
                  vbeq_refl Value.empty rfl
            | num m =>
                have hm := mergeChangedMap_guard k .empty .empty
                  da (vbeq_refl _ rfl)
                simpa [filterChangedMapWithRules, mSlot, hm, oEq] using
                  vbeq_refl Value.empty rfl
            | empty =>
                have hm := mergeChangedMap_guard k .empty .empty
                  da (vbeq_refl _ rfl)
                simpa [filterChangedMapWithRules, mSlot, hm, oEq] using
                  vbeq_refl Value.empty rfl
            | arr res =>
                have hm := mergeChangedMap_guard k .empty .empty
                  da (vbeq_refl _ rfl)
                simpa [filterChangedMapWithRules, mSlot, hm, oEq] using
                  vbeq_refl Value.empty rfl
      · intro da rfs dfs hsz hw
        have hnd := wfFields_nodup dfs hw
        have hwdF := filterFields_wf dfs rfs hw
        have hwa : wfFields
            (mergeFields da dfs (filterFields dfs rfs)) = true :=
          mergeFields_wf da dfs _ hw hwdF
        have hslots : ∀ k,
            oEq (fget (mergeFields da dfs (filterFields dfs rfs)) k)
              (fget dfs k) = true := by
          intro k
          rw [fget_mergeFields_mSlot da dfs _ k hnd]
          rw [fget_filterFields dfs rfs k hnd]
          by_cases hck : containsKey dfs k
          · rw [if_pos hck, fget_of_containsKey dfs k hck]
            have hszk : sizeOf (alookup dfs k) ≤ n := by
              have := sizeOf_alookup_lt dfs k hck
              omega
            simpa [Option.bind] using
              ih.1 k da (alookup rfs k) (alookup dfs k) hszk
                (wfFields_alookup dfs k hw)
          · have hck0 : containsKey dfs k = false := by
              cases h : containsKey dfs k
              · rfl
              · exact absurd h hck
            rw [if_neg hck, fget_none_of_not_containsKey dfs k hck0]
            rfl
        refine vbeq_obj_intro _ _ (wfFields_nodup _ hwa) ?_ ?_
        · intro k
          rw [containsKey_eq_isSome_fget, containsKey_eq_isSome_fget]
          exact oEq_isSome _ _ (hslots k)
        · intro k hk
          rw [alookup_eq_fget, alookup_eq_fget]
          refine oEq_getD _ _ (hslots k) ?_
          rw [containsKey_eq_isSome_fget] at hk
          exact hk

/-- Packaged form of the fields-level restoration lemma. -/
theorem restoreFields (da : Bool) (rfs dfs : List (String × Value))
    (hw : wfFields dfs = true) :
    vbeq (.obj (mergeFields da dfs (filterFields dfs rfs)))
      (.obj dfs) = true :=
  (restore_rec (sizeOf dfs)).2 da rfs dfs (Nat.le_refl _) hw


/-! #### Slot idempotence: the non-recursive cases -/

theorem mergeChangedMap_catchall (k : String) (dv cv : Value) (da : Bool)
    (hd1 : ∀ fs, dv ≠ Value.obj fs) (hd2 : ∀ es, dv ≠ Value.arr es)
    (hc : cv ≠ .null) (hg : vbeq dv cv = false) :
    mergeChangedMap k dv cv da =
      if k ∈ comparableKeys then
        some (if da then cv else (ResourceComparison dv cv).1)
      else none := by
  cases dv <;> cases cv <;> first
    | exact absurd rfl (hd1 _)
    | exact absurd rfl (hd2 _)
    | exact absurd rfl hc
    | (unfold mergeChangedMap; rw [hg]; rfl)

theorem mergeChangedMap_obj_other (k : String)
    (dfs : List (String × Value)) (cv : Value) (da : Bool)
    (h1 : cv ≠ .null) (h2 : ∀ fs, cv ≠ Value.obj fs) :
    mergeChangedMap k (.obj dfs) cv da = none := by
  cases cv <;> first
    | exact absurd rfl h1
    | exact absurd rfl (h2 _)
    | rfl

theorem mergeChangedMap_arr_other (k : String) (ds : List Value)
    (cv : Value) (da : Bool) (h1 : cv ≠ .null)
    (h2 : ∀ es, cv ≠ Value.arr es) :
    mergeChangedMap k (.arr ds) cv da = none := by
  cases cv <;> first
    | exact absurd rfl h1
    | exact absurd rfl (h2 _)
    | rfl

/-- Packaged slot-level restoration lemma. -/
theorem restoreSlot (k : String) (da : Bool) (rv v : Value)
    (hw : wfv v = true) :
    oEq (mSlot k v da (filterChangedMapWithRules v rv)) (some v) = true :=
  (restore_rec (sizeOf v)).1 k da rv v (Nat.le_refl _) hw

/-- A slot that the first pass restored to the default value is stable
under the filter-then-merge of the second pass. -/
theorem slot_restored (k : String) (da ow : Bool) (rk dv : Value)
    (hwd : wfv dv = true) :
    oEq (mSlot k dv da (slotPass ow rk (some dv))) (some dv) = true := by
  cases ow with
  | false =>
      have h := restoreSlot k da rk dv hwd
      simpa [slotPass] using h
  | true =>
      have hmm := mergeChangedMap_guard k dv dv da (vbeq_refl dv hwd)
      simpa [slotPass, mSlot, hmm, oEq] using vbeq_refl dv hwd

/-- Slot idempotence of the rule-filtered merge when the default value is a
scalar or Go `nil`: no recursion into the tree is involved. -/
theorem slotP_nonContainer (k : String) (dv : Value) (da ow : Bool)
    (rk : Value) (c : Option Value)
    (hd1 : ∀ fs, dv ≠ Value.obj fs) (hd2 : ∀ es, dv ≠ Value.arr es)
    (hcw : ∀ w, c = some w → wfv w = true)
    (hcf : ow = false → ∀ w, c = some w →
      filterChangedMapWithRules w rk = some w) :
    oEq (mSlot k dv da (slotPass ow rk (mSlot k dv da c)))
      (mSlot k dv da c) = true := by
  have hwd : wfv dv = true := by
    cases dv <;> first
      | exact absurd rfl (hd1 _)
      | exact absurd rfl (hd2 _)
      | rfl
  have base : mSlot k dv da c = c →
      oEq (mSlot k dv da (slotPass ow rk (mSlot k dv da c)))
        (mSlot k dv da c) = true := by
    intro hmc
    rw [hmc, slotPass_fix ow rk c hcf, hmc]
    exact oEq_refl c hcw
  cases hm0 : mergeChangedMap k dv (c.getD .null) da with
  | none => exact base (mSlot_none k dv da c hm0)
  | some r =>
      have hmsl : mSlot k dv da c = some r := by
        unfold mSlot
        rw [hm0]
      cases c with
      | none =>
          simp only [Option.getD_none] at hm0
          by_cases hdn : dv = .null
          · subst hdn
            rw [mergeChangedMap_guard k .null .null da rfl] at hm0
            exact Option.noConfusion hm0
          · have hscalar : isScalarValue dv = true := by
              cases dv <;> first
                | exact absurd rfl (hd1 _)
                | exact absurd rfl (hd2 _)
                | exact absurd rfl hdn
                | rfl
            rw [mergeChangedMap_scalar_null k dv da hscalar] at hm0
            injection hm0 with hr
            subst hr
            rw [hmsl]
            exact slot_restored k da ow rk dv hwd
      | some w =>
          simp only [Option.getD_some] at hm0
          by_cases hwn : w = .null
          · subst hwn
            by_cases hdn : dv = .null
            · subst hdn
              rw [mergeChangedMap_guard k .null .null da rfl] at hm0
              exact Option.noConfusion hm0
            · have hscalar : isScalarValue dv = true := by
                cases dv <;> first
                  | exact absurd rfl (hd1 _)
                  | exact absurd rfl (hd2 _)
                  | exact absurd rfl hdn
                  | rfl
              rw [mergeChangedMap_scalar_null k dv da hscalar] at hm0
              injection hm0 with hr
              subst hr
              rw [hmsl]
              exact slot_restored k da ow rk dv hwd
          · by_cases hb : vbeq dv w = true
            · rw [mergeChangedMap_guard k dv w da hb] at hm0
              exact Option.noConfusion hm0
            · rw [Bool.not_eq_true] at hb
              rw [mergeChangedMap_catchall k dv w da hd1 hd2 hwn hb] at hm0
              by_cases hk : k ∈ comparableKeys
              · rw [if_pos hk] at hm0
                injection hm0 with hr
                cases da with
                | true =>
                    simp at hr
                    subst hr
                    exact base hmsl
                | false =>
                    simp at hr
                    rcases ResourceComparison_fst_mem dv w with hrc | hrc
                    · rw [hrc] at hr
                      subst hr
                      rw [hmsl]
                      exact slot_restored k false ow rk dv hwd
                    · rw [hrc] at hr
                      subst hr
                      exact base hmsl
              · rw [if_neg hk] at hm0
                exact Option.noConfusion hm0


/-! #### Idempotence of the rule-filtered merge -/

/-- Idempotence of the rule-filtered merge, slot by slot, map by map and
list by list, by strong induction on the size of the default side.  The
default side must be well-formed and its lists must contain only maps; the
changed side must be well-formed, and pre-filtered when `overwrite` is
unset. -/
theorem idem_rec :
    ∀ n : Nat,
      (∀ (k : String) (dv : Value) (da ow : Bool) (rk : Value)
          (c : Option Value), sizeOf dv ≤ n →
        wfv dv = true → goodv dv = true →
        (∀ w, c = some w → wfv w = true) →
        (ow = false → ∀ w, c = some w →
          filterChangedMapWithRules w rk = some w) →
        oEq (mSlot k dv da (slotPass ow rk (mSlot k dv da c)))
          (mSlot k dv da c) = true)
      ∧
      (∀ (da ow : Bool) (rfs dfs cfs : List (String × Value)),
        sizeOf dfs ≤ n →
        wfFields dfs = true → goodFields dfs = true →
        wfFields cfs = true →
        (ow = false → filterFields cfs rfs = cfs) →
        vbeq
          (.obj (mergeFields da dfs
            (passFields ow rfs (mergeFields da dfs cfs))))
          (.obj (mergeFields da dfs cfs)) = true)
      ∧
      (∀ (da : Bool) (ds cs : List Value), sizeOf ds ≤ n →
        wfList ds = true → goodArr ds = true → wfList cs = true →
        vbeq
          (.arr (mergeArr da ds 0 (mergeArr da ds 0 cs.length cs).length
            (mergeArr da ds 0 cs.length cs)))
          (.arr (mergeArr da ds 0 cs.length cs)) = true) := by
  intro n
  induction n with
  | zero =>
      refine ⟨?_, ?_, ?_⟩
      · intro k dv da ow rk c hsz; cases dv <;> simp at hsz
      · intro da ow rfs dfs cfs hsz; cases dfs <;> simp at hsz
      · intro da ds cs hsz; cases ds <;> simp at hsz
  | succ n ih =>
      refine ⟨?_, ?_, ?_⟩
      · intro k dv da ow rk c hsz hwd hgd hcw hcf
        have base : mSlot k dv da c = c →
            oEq (mSlot k dv da (slotPass ow rk (mSlot k dv da c)))
              (mSlot k dv da c) = true := by
          intro hmc
          rw [hmc, slotPass_fix ow rk c hcf, hmc]
          exact oEq_refl c hcw
        cases dv with
        | null =>
            exact slotP_nonContainer k .null da ow rk c
              (fun fs h => Value.noConfusion h)
              (fun es h => Value.noConfusion h) hcw hcf
        | boolean b =>
            exact slotP_nonContainer k (.boolean b) da ow rk c
              (fun fs h => Value.noConfusion h)
              (fun es h => Value.noConfusion h) hcw hcf
        | str t =>
            exact slotP_nonContainer k (.str t) da ow rk c
              (fun fs h => Value.noConfusion h)
              (fun es h => Value.noConfusion h) hcw hcf
        | num q =>
            exact slotP_nonContainer k (.num q) da ow rk c
              (fun fs h => Value.noConfusion h)
              (fun es h => Value.noConfusion h) hcw hcf
        | empty =>
            exact slotP_nonContainer k .empty da ow rk c
              (fun fs h => Value.noConfusion h)
              (fun es h => Value.noConfusion h) hcw hcf
        | obj dfs =>
            have hwdfs : wfFields dfs = true := hwd
            have hgdfs : goodFields dfs = true := hgd
            have hszf : sizeOf dfs ≤ n := by simp at hsz; omega
            cases hm0 : mergeChangedMap k (.obj dfs) (c.getD .null) da with
            | none => exact base (mSlot_none _ _ _ _ hm0)
            | some r =>
                have hmsl : mSlot k (.obj dfs) da c = some r := by
                  unfold mSlot
                  rw [hm0]
                cases c with
                | none =>
                    simp only [Option.getD_none] at hm0
                    rw [mergeChangedMap_obj_null] at hm0
                    injection hm0 with hr
                    subst hr
                    rw [hmsl]
                    exact slot_restored k da ow rk (.obj dfs) hwd
                | some w =>
                    simp only [Option.getD_some] at hm0
                    cases w with
                    | null =>
                        rw [mergeChangedMap_obj_null] at hm0
                        injection hm0 with hr
                        subst hr
                        rw [hmsl]
                        exact slot_restored k da ow rk (.obj dfs) hwd
                    | obj cfs =>
                        by_cases hb : vbeq (.obj dfs) (.obj cfs) = true
                        · rw [mergeChangedMap_guard k _ _ da hb] at hm0
                          exact Option.noConfusion hm0
                        · rw [Bool.not_eq_true] at hb
                          rw [mergeChangedMap_obj_obj k dfs cfs da hb] at hm0
                          injection hm0 with hr
                          subst hr
                          rw [hmsl]
                          have hwcfs : wfFields cfs = true := hcw _ rfl
                          have hwmf : wfFields (mergeFields da dfs cfs)
                              = true := mergeFields_wf da dfs cfs hwdfs hwcfs
                          cases ow with
                          | true =>
                              rw [slotPass_true]
                              by_cases hb2 : vbeq (.obj dfs)
                                  (.obj (mergeFields da dfs cfs)) = true
                              · have hmm := mergeChangedMap_guard k _ _ da hb2
                                simpa [mSlot, hmm, oEq] using
                                  vbeq_refl
                                    (Value.obj (mergeFields da dfs cfs)) hwmf
                              · rw [Bool.not_eq_true] at hb2
                                have hmm := mergeChangedMap_obj_obj k dfs
                                  (mergeFields da dfs cfs) da hb2
                                have hidem := ih.2.1 da true
                                  ([] : List (String × Value)) dfs cfs hszf
                                  hwdfs hgdfs hwcfs
                                  (fun h => Bool.noConfusion h)
                                simp [passFields] at hidem
                                simpa [mSlot, hmm, oEq] using hidem
                          | false =>
                              have hF := hcf rfl (.obj cfs) rfl
                              cases rk with
                              | null =>
                                  rw [filter_obj] at hF
                                  exact Option.noConfusion hF
                              | boolean b2 =>
                                  rw [filter_obj] at hF
                                  exact Option.noConfusion hF
                              | str s2 =>
                                  rw [filter_obj] at hF
                                  exact Option.noConfusion hF
                              | num m2 =>
                                  rw [filter_obj] at hF
                                  exact Option.noConfusion hF
                              | empty =>
                                  rw [filter_obj] at hF
                                  exact Option.noConfusion hF
                              | arr es2 =>
                                  rw [filter_obj] at hF
                                  exact Option.noConfusion hF
                              | obj rfs =>
                                  rw [filter_obj] at hF
                                  injection hF with hF
                                  injection hF with hF
                                  have hidem := ih.2.1 da false rfs dfs cfs
                                    hszf hwdfs hgdfs hwcfs (fun _ => hF)
                                  simp [passFields] at hidem
                                  by_cases hb2 : vbeq (.obj dfs)
                                      (.obj (filterFields
                                        (mergeFields da dfs cfs) rfs)) = true
                                  · have hnoop :
                                        mergeFields da dfs
                                          (filterFields
                                            (mergeFields da dfs cfs) rfs)
                                        = filterFields
                                            (mergeFields da dfs cfs) rfs :=
                                      mergeFields_noop da dfs _
                                        (wfFields_nodup dfs hwdfs)
                                        (fun k2 hk2 =>
                                          vbeq_obj_vals dfs _ hb2 k2 hk2)
                                    have hmm := mergeChangedMap_guard k
                                      (.obj dfs)
                                      (.obj (filterFields
                                        (mergeFields da dfs cfs) rfs)) da hb2
                                    rw [hnoop] at hidem
                                    simpa [slotPass,
                                      filterChangedMapWithRules, mSlot, hmm,
                                      oEq] using hidem
                                  · rw [Bool.not_eq_true] at hb2
                                    have hmm := mergeChangedMap_obj_obj k dfs
                                      (filterFields
                                        (mergeFields da dfs cfs) rfs) da hb2
                                    simpa [slotPass,
                                      filterChangedMapWithRules, mSlot, hmm,
                                      oEq] using hidem
                    | boolean b2 =>
                        rw [mergeChangedMap_obj_other k dfs _ da
                          (fun h => Value.noConfusion h)
                          (fun fs h => Value.noConfusion h)] at hm0
                        exact Option.noConfusion hm0
                    | str s2 =>
                        rw [mergeChangedMap_obj_other k dfs _ da
                          (fun h => Value.noConfusion h)
                          (fun fs h => Value.noConfusion h)] at hm0
                        exact Option.noConfusion hm0
                    | num m2 =>
                        rw [mergeChangedMap_obj_other k dfs _ da
                          (fun h => Value.noConfusion h)
                          (fun fs h => Value.noConfusion h)] at hm0
                        exact Option.noConfusion hm0
                    | empty =>
                        rw [mergeChangedMap_obj_other k dfs _ da
                          (fun h => Value.noConfusion h)
                          (fun fs h => Value.noConfusion h)] at hm0
                        exact Option.noConfusion hm0
                    | arr es2 =>
                        rw [mergeChangedMap_obj_other k dfs _ da
                          (fun h => Value.noConfusion h)
                          (fun fs h => Value.noConfusion h)] at hm0
                        exact Option.noConfusion hm0
        | arr ds =>
            have hwds : wfList ds = true := hwd
            have hgds : goodArr ds = true := hgd
            have hszf : sizeOf ds ≤ n := by simp at hsz; omega
            cases hm0 : mergeChangedMap k (.arr ds) (c.getD .null) da with
            | none => exact base (mSlot_none _ _ _ _ hm0)
            | some r =>
                have hmsl : mSlot k (.arr ds) da c = some r := by
                  unfold mSlot
                  rw [hm0]
                cases c with
                | none =>
                    simp only [Option.getD_none] at hm0
                    rw [mergeChangedMap_arr_null] at hm0
                    injection hm0 with hr
                    subst hr
                    rw [hmsl]
                    exact slot_restored k da ow rk (.arr ds) hwd
                | some w =>
                    simp only [Option.getD_some] at hm0
                    cases w with
                    | null =>
                        rw [mergeChangedMap_arr_null] at hm0
                        injection hm0 with hr
                        subst hr
                        rw [hmsl]
                        exact slot_restored k da ow rk (.arr ds) hwd
                    | arr cs =>
                        by_cases hb : vbeq (.arr ds) (.arr cs) = true
                        · rw [mergeChangedMap_guard k _ _ da hb] at hm0
                          exact Option.noConfusion hm0
                        · rw [Bool.not_eq_true] at hb
                          rw [mergeChangedMap_arr_arr k ds cs da hb] at hm0
                          injection hm0 with hr
                          subst hr
                          rw [hmsl]
                          have hwcs : wfList cs = true := hcw _ rfl
                          have hwma : wfList (mergeArr da ds 0 cs.length cs)
                              = true :=
                            mergeArr_wf da ds 0 cs.length cs hwds hwcs
                          have hpass : slotPass ow rk
                              (some (.arr (mergeArr da ds 0 cs.length cs)))
                              = some (.arr (mergeArr da ds 0 cs.length cs))
                              := by
                            cases ow with
                            | true => rfl
                            | false =>
                                have hF := hcf rfl (.arr cs) rfl
                                cases rk with
                                | null =>
                                    rw [filter_nonmap_null (.arr cs)
                                      (fun fs h => Value.noConfusion h)
                                      (fun h => Value.noConfusion h)] at hF
                                    exact Option.noConfusion hF
                                | obj rfs =>
                                    simp [slotPass, filter_nonmap_some
                                      (Value.arr
                                        (mergeArr da ds 0 cs.length cs))
                                      (Value.obj rfs)
                                      (fun fs h => Value.noConfusion h)
                                      (fun h => Value.noConfusion h)
                                      (fun h => Value.noConfusion h)]
                                | boolean b2 =>
                                    simp [slotPass, filter_nonmap_some
                                      (Value.arr
                                        (mergeArr da ds 0 cs.length cs))
                                      (Value.boolean b2)
                                      (fun fs h => Value.noConfusion h)
                                      (fun h => Value.noConfusion h)
                                      (fun h => Value.noConfusion h)]
                                | str s2 =>
                                    simp [slotPass, filter_nonmap_some
                                      (Value.arr
                                        (mergeArr da ds 0 cs.length cs))
                                      (Value.str s2)
                                      (fun fs h => Value.noConfusion h)
                                      (fun h => Value.noConfusion h)
                                      (fun h => Value.noConfusion h)]
                                | num m2 =>
                                    simp [slotPass, filter_nonmap_some
                                      (Value.arr
                                        (mergeArr da ds 0 cs.length cs))
                                      (Value.num m2)
                                      (fun fs h => Value.noConfusion h)
                                      (fun h => Value.noConfusion h)
                                      (fun h => Value.noConfusion h)]
                                | empty =>
                                    simp [slotPass, filter_nonmap_some
                                      (Value.arr
                                        (mergeArr da ds 0 cs.length cs))
                                      Value.empty
                                      (fun fs h => Value.noConfusion h)
                                      (fun h => Value.noConfusion h)
                                      (fun h => Value.noConfusion h)]
                                | arr es2 =>
                                    simp [slotPass, filter_nonmap_some
                                      (Value.arr
                                        (mergeArr da ds 0 cs.length cs))
                                      (Value.arr es2)
                                      (fun fs h => Value.noConfusion h)
                                      (fun h => Value.noConfusion h)
                                      (fun h => Value.noConfusion h)]
                          rw [hpass]
                          by_cases hb2 : vbeq (.arr ds)
                              (.arr (mergeArr da ds 0 cs.length cs)) = true
                          · have hmm := mergeChangedMap_guard k _ _ da hb2
                            simpa [mSlot, hmm, oEq] using
                              vbeq_refl
                                (Value.arr (mergeArr da ds 0 cs.length cs))
                                hwma
                          · rw [Bool.not_eq_true] at hb2
                            have hmm := mergeChangedMap_arr_arr k ds
                              (mergeArr da ds 0 cs.length cs) da hb2
                            have hidem := ih.2.2 da ds cs hszf hwds hgds hwcs
                            simpa [mSlot, hmm, oEq] using hidem
                    | obj cfs2 =>
                        rw [mergeChangedMap_arr_other k ds _ da
                          (fun h => Value.noConfusion h)
                          (fun es h => Value.noConfusion h)] at hm0
                        exact Option.noConfusion hm0
                    | boolean b2 =>
                        rw [mergeChangedMap_arr_other k ds _ da
                          (fun h => Value.noConfusion h)
                          (fun es h => Value.noConfusion h)] at hm0
                        exact Option.noConfusion hm0
                    | str s2 =>
                        rw [mergeChangedMap_arr_other k ds _ da
                          (fun h => Value.noConfusion h)
                          (fun es h => Value.noConfusion h)] at hm0
                        exact Option.noConfusion hm0
                    | num m2 =>
                        rw [mergeChangedMap_arr_other k ds _ da
                          (fun h => Value.noConfusion h)
                          (fun es h => Value.noConfusion h)] at hm0
                        exact Option.noConfusion hm0
                    | empty =>
                        rw [mergeChangedMap_arr_other k ds _ da
                          (fun h => Value.noConfusion h)
                          (fun es h => Value.noConfusion h)] at hm0
                        exact Option.noConfusion hm0
      · intro da ow rfs dfs cfs hsz hwdfs hgdfs hwcfs hfix
        have hnd := wfFields_nodup dfs hwdfs
        have hwmf : wfFields (mergeFields da dfs cfs) = true :=
          mergeFields_wf da dfs cfs hwdfs hwcfs
        have hndmf := wfFields_nodup _ hwmf
        have hwpf : wfFields (passFields ow rfs (mergeFields da dfs cfs))
            = true := by
          cases ow with
          | false => simpa [passFields] using filterFields_wf _ rfs hwmf
          | true => simpa [passFields] using hwmf
        have hwa : wfFields (mergeFields da dfs
            (passFields ow rfs (mergeFields da dfs cfs))) = true :=
          mergeFields_wf da dfs _ hwdfs hwpf
        have hslots : ∀ k,
            oEq (fget (mergeFields da dfs
                (passFields ow rfs (mergeFields da dfs cfs))) k)
              (fget (mergeFields da dfs cfs) k) = true := by
          intro k
          have hpass : fget (passFields ow rfs (mergeFields da dfs cfs)) k
              = slotPass ow (alookup rfs k)
                  (fget (mergeFields da dfs cfs) k) := by
            cases ow with
            | false =>
                simp [passFields, slotPass,
                  fget_filterFields _ rfs k hndmf]
            | true => simp [passFields, slotPass]
          rw [fget_mergeFields_mSlot da dfs _ k hnd, hpass,
            fget_mergeFields_mSlot da dfs cfs k hnd]
          by_cases hck : containsKey dfs k
          · simp only [if_pos hck]
            have hszk : sizeOf (alookup dfs k) ≤ n := by
              have := sizeOf_alookup_lt dfs k hck
              omega
            exact ih.1 k (alookup dfs k) da ow (alookup rfs k)
              (fget cfs k) hszk (wfFields_alookup dfs k hwdfs)
              (goodFields_alookup dfs k hgdfs)
              (fun w hw => wfFields_fget cfs k w hwcfs hw)
              (fun how w hw => filterFields_fix_entries cfs rfs (hfix how)
                (k, w) (fget_mem cfs k w hw))
          · simp only [if_neg hck]
            rw [slotPass_fix ow (alookup rfs k) (fget cfs k)
              (fun how w hw => filterFields_fix_entries cfs rfs (hfix how)
                (k, w) (fget_mem cfs k w hw))]
            exact oEq_refl _ (fun w hw => wfFields_fget cfs k w hwcfs hw)
        refine vbeq_obj_intro _ _ (wfFields_nodup _ hwa) ?_ ?_
        · intro k
          rw [containsKey_eq_isSome_fget, containsKey_eq_isSome_fget]
          exact oEq_isSome _ _ (hslots k)
        · intro k hk
          rw [alookup_eq_fget, alookup_eq_fget]
          refine oEq_getD _ _ (hslots k) ?_
          rw [containsKey_eq_isSome_fget] at hk
          exact hk
      · intro da ds cs hsz hwds hgds hwcs
        have hndwds := hwds
        have hlen0 : cs.length = max cs.length 0 := by omega
        have hma : (mergeArr da ds 0 cs.length cs).length
            = max cs.length ds.length := by
          have h0 := mergeArr_length da ds cs.length hgds 0 cs hlen0
          simpa using h0
        have hwma : wfList (mergeArr da ds 0 cs.length cs) = true :=
          mergeArr_wf da ds 0 cs.length cs hwds hwcs
        have hlen1 : (mergeArr da ds 0 cs.length cs).length
            = max (mergeArr da ds 0 cs.length cs).length 0 := by omega
        show vbeqList
          (mergeArr da ds 0 (mergeArr da ds 0 cs.length cs).length
            (mergeArr da ds 0 cs.length cs))
          (mergeArr da ds 0 cs.length cs) = true
        refine vbeqList_intro _ _ ?_ ?_
        · have h1 := mergeArr_length da ds
            (mergeArr da ds 0 cs.length cs).length hgds 0
            (mergeArr da ds 0 cs.length cs) hlen1
          simp only [Nat.zero_add] at h1
          rw [h1, hma]
          omega
        · intro i x y hx hy
          by_cases hi : i < ds.length
          · cases hz : ds.get? i with
            | none =>
                rw [List.get?_eq_none] at hz
                omega
            | some z =>
                obtain ⟨dfs, hzo, hgdfs⟩ := goodArr_get ds i z hgds hz
                subst hzo
                have hwdfs : wfFields dfs = true := wfList_get ds i _ hwds hz
                have hszk : sizeOf dfs ≤ n := by
                  have h2 := sizeOf_elem_lt ds _ (List.get?_mem hz)
                  simp at h2
                  omega
                have h1 := mergeArr_get_in da ds cs.length hgds 0 cs hlen0
                  i dfs (Nat.zero_le i) (by simpa using hz)
                have h2 := mergeArr_get_in da ds
                  (mergeArr da ds 0 cs.length cs).length hgds 0
                  (mergeArr da ds 0 cs.length cs) hlen1
                  i dfs (Nat.zero_le i) (by simpa using hz)
                have hiMA : i < (mergeArr da ds 0 cs.length cs).length := by
                  rw [hma]
                  omega
                rw [if_pos hiMA] at h2
                by_cases hic : i < cs.length
                · rw [if_pos hic] at h1
                  cases hc0 : cs.get? i with
                  | none =>
                      rw [List.get?_eq_none] at hc0
                      omega
                  | some c0 =>
                      rw [hc0] at h1
                      cases c0 with
                      | obj cfs0 =>
                          have h1a : (mergeArr da ds 0 cs.length cs).get? i
                              = some (.obj (mergeFields da dfs cfs0)) := h1
                          rw [h1a] at hy h2
                          injection hy with hy
                          have h2a : (mergeArr da ds 0
                              (mergeArr da ds 0 cs.length cs).length
                              (mergeArr da ds 0 cs.length cs)).get? i
                              = some (.obj (mergeFields da dfs
                                  (mergeFields da dfs cfs0))) := h2
                          rw [h2a] at hx
                          injection hx with hx
                          subst hx
                          subst hy
                          have hwcfs0 : wfFields cfs0 = true :=
                            wfList_get cs i _ hwcs hc0
                          have hidem := ih.2.1 da true
                            ([] : List (String × Value)) dfs cfs0 hszk hwdfs
                            hgdfs hwcfs0 (fun h => Bool.noConfusion h)
                          simpa [passFields] using hidem
                      | null =>
                          have h1a : (mergeArr da ds 0 cs.length cs).get? i
                              = some .null := h1
                          rw [h1a] at hy h2
                          injection hy with hy
                          have h2a : (mergeArr da ds 0
                              (mergeArr da ds 0 cs.length cs).length
                              (mergeArr da ds 0 cs.length cs)).get? i
                              = some .null := h2
                          rw [h2a] at hx
                          injection hx with hx
                          subst hx
                          subst hy
                          exact vbeq_refl _ (wfList_get cs i _ hwcs hc0)
                      | boolean b2 =>
                          have h1a : (mergeArr da ds 0 cs.length cs).get? i
                              = some (.boolean b2) := h1
                          rw [h1a] at hy h2
                          injection hy with hy
                          have h2a : (mergeArr da ds 0
                              (mergeArr da ds 0 cs.length cs).length
                              (mergeArr da ds 0 cs.length cs)).get? i
                              = some (.boolean b2) := h2
                          rw [h2a] at hx
                          injection hx with hx
                          subst hx
                          subst hy
                          exact vbeq_refl _ (wfList_get cs i _ hwcs hc0)
                      | str s2 =>
                          have h1a : (mergeArr da ds 0 cs.length cs).get? i
                              = some (.str s2) := h1
                          rw [h1a] at hy h2
                          injection hy with hy
                          have h2a : (mergeArr da ds 0
                              (mergeArr da ds 0 cs.length cs).length
                              (mergeArr da ds 0 cs.length cs)).get? i
                              = some (.str s2) := h2
                          rw [h2a] at hx
                          injection hx with hx
                          subst hx
                          subst hy
                          exact vbeq_refl _ (wfList_get cs i _ hwcs hc0)
                      | num m2 =>
                          have h1a : (mergeArr da ds 0 cs.length cs).get? i
                              = some (.num m2) := h1
                          rw [h1a] at hy h2
                          injection hy with hy
                          have h2a : (mergeArr da ds 0
                              (mergeArr da ds 0 cs.length cs).length
                              (mergeArr da ds 0 cs.length cs)).get? i
                              = some (.num m2) := h2
                          rw [h2a] at hx
                          injection hx with hx
                          subst hx
                          subst hy
                          exact vbeq_refl _ (wfList_get cs i _ hwcs hc0)
                      | empty =>
                          have h1a : (mergeArr da ds 0 cs.length cs).get? i
                              = some .empty := h1
                          rw [h1a] at hy h2
                          injection hy with hy
                          have h2a : (mergeArr da ds 0
                              (mergeArr da ds 0 cs.length cs).length
                              (mergeArr da ds 0 cs.length cs)).get? i
                              = some .empty := h2
                          rw [h2a] at hx
                          injection hx with hx
                          subst hx
                          subst hy
                          exact vbeq_refl _ (wfList_get cs i _ hwcs hc0)
                      | arr es2 =>
                          have h1a : (mergeArr da ds 0 cs.length cs).get? i
                              = some (.arr es2) := h1
                          rw [h1a] at hy h2
                          injection hy with hy
                          have h2a : (mergeArr da ds 0
                              (mergeArr da ds 0 cs.length cs).length
                              (mergeArr da ds 0 cs.length cs)).get? i
                              = some (.arr es2) := h2
                          rw [h2a] at hx
                          injection hx with hx
                          subst hx
                          subst hy
                          exact vbeq_refl _ (wfList_get cs i _ hwcs hc0)
                · rw [if_neg hic] at h1
                  rw [h1] at hy h2
                  injection hy with hy
                  have hnoop : mergeFields da dfs dfs = dfs :=
                    mergeFields_noop da dfs dfs (wfFields_nodup dfs hwdfs)
                      (fun k2 hk2 =>
                        vbeq_refl _ (wfFields_alookup dfs k2 hwdfs))
                  have h2a : (mergeArr da ds 0
                      (mergeArr da ds 0 cs.length cs).length
                      (mergeArr da ds 0 cs.length cs)).get? i
                      = some (.obj (mergeFields da dfs dfs)) := h2
                  rw [hnoop] at h2a
                  rw [h2a] at hx
                  injection hx with hx
                  subst hx
                  subst hy
                  exact vbeq_refl _ hwdfs
          · have hout := mergeArr_get_out da ds
              (mergeArr da ds 0 cs.length cs).length hgds 0
              (mergeArr da ds 0 cs.length cs) hlen1 i (Or.inr (by omega))
            rw [hx, hy] at hout
            injection hout with hout
            subst hout
            exact vbeq_refl _ (wfList_get _ i _ hwma hy)


/-- C2 (amended): the rule-filtered merge is idempotent up to
`reflect.DeepEqual` whenever the default tree is well-formed
(duplicate-free map keys) and every list anywhere in it contains only
maps, and the changed tree is well-formed: merging the default into the
merge's own output reproduces that output.  Without the list restriction
the property fails (see the counterexample): the list branch appends
trailing default map elements using the original changed length, so a
non-map element between maps makes a second pass append again. -/
theorem C2_amended (defaultMap changedMap rules : List (String × Value))
    (overwrite directAssign : Bool)
    (hwd : wfFields defaultMap = true)
    (hgd : goodFields defaultMap = true)
    (hwc : wfFields changedMap = true) :
    vbeq
      (.obj (mergeCRsIntoOperandConfig defaultMap
        (mergeCRsIntoOperandConfig defaultMap changedMap rules
          overwrite directAssign) rules overwrite directAssign))
      (.obj (mergeCRsIntoOperandConfig defaultMap changedMap rules
        overwrite directAssign)) = true := by
  cases overwrite with
  | true =>
      have h := (idem_rec (sizeOf defaultMap)).2.1 directAssign true rules
        defaultMap changedMap (Nat.le_refl _) hwd hgd hwc
        (fun h => Bool.noConfusion h)
      simpa [mergeCRsIntoOperandConfig, passFields] using h
  | false =>
      have h := (idem_rec (sizeOf defaultMap)).2.1 directAssign false rules
        defaultMap (filterFields changedMap rules) (Nat.le_refl _) hwd hgd
        (filterFields_wf changedMap rules hwc)
        (fun _ => filterFields_fix changedMap rules)
      simpa [mergeCRsIntoOperandConfig, passFields] using h

/-- A concrete default map for the C2 witness: maps, a list of maps, a
comparable scalar and a plain scalar. -/
def c2wD : List (String × Value) :=
  [("cpu", .str "200m"),
   ("spec", .obj [("replicas", .num 1),
     ("containers", .arr [.obj [("image", .str "a")]])]),
   ("foo", .str "bar")]

/-- A concrete changed map for the C2 witness. -/
def c2wC : List (String × Value) :=
  [("cpu", .str "500m"), ("extra", .str "x"),
   ("spec", .obj [("replicas", .num 3)])]

/-- A concrete rule tree for the C2 witness. -/
def c2wR : List (String × Value) :=
  [("cpu", .obj []), ("spec", .obj [("replicas", .obj [])])]

/-- C2: witness for the amended idempotence at a concrete input, with the
well-formedness hypotheses evaluated on it. -/
theorem C2_witness :
    wfFields c2wD = true ∧ goodFields c2wD = true ∧
      wfFields c2wC = true ∧
      vbeq
        (.obj (mergeCRsIntoOperandConfig c2wD
          (mergeCRsIntoOperandConfig c2wD c2wC c2wR false false)
          c2wR false false))
        (.obj (mergeCRsIntoOperandConfig c2wD c2wC c2wR false false))
        = true :=
  ⟨rfl, rfl, rfl, C2_amended c2wD c2wC c2wR false false rfl rfl rfl⟩


end OperandConfig
